import Mathlib

/-!
Verification development for the KODA format engine (koda-js).

The repository ships its orchestration layer (`src/index.ts`), the decoder
worker together with the N-API binding (`src/worker/decoder-worker.ts` /
`binding.cc`), and the native-addon loader (`native.ts`).  The algorithmic
core (the binary encoder and decoder of the `.kod` format) is referenced by
those files but its sources are not part of the bundle, so it is modelled
here from the specification (SPEC sections 4.3 and 4.4); every definition
whose doc comment starts with `Modelled from the spec:` is such a model.
All other definitions are direct translations of the shipped sources.

Bytes are modelled as natural numbers below 256, byte strings as `List Nat`,
IEEE-754 binary64 numbers as their 64-bit bit patterns.
-/

set_option maxRecDepth 4000

namespace Koda

/-- Keys and string payloads are UTF-8 byte sequences, modelled as lists of bytes. -/
abbrev Key := List Nat

/-- Strict lexicographic order on byte sequences (shorter proper initial segment first). -/
def lexLt : List Nat → List Nat → Bool
  | [], [] => false
  | [], _ :: _ => true
  | _ :: _, [] => false
  | a :: as, b :: bs => a < b || (a == b && lexLt as bs)

/-- Reflexive closure of `lexLt`. -/
def lexLe (a b : List Nat) : Bool := lexLt a b || a == b

/-- Check for a UTF-8 continuation byte. -/
def isCont (b : Nat) : Bool := 0x80 ≤ b && b < 0xC0

/-- Length class of a UTF-8 lead byte: 1 for ASCII, 2 to 4 for the lead of a
multi-byte sequence, 0 for a byte that cannot begin a sequence. -/
def utf8Class (b : Nat) : Nat :=
  if b < 0x80 then 1
  else if b < 0xC2 then 0
  else if b < 0xE0 then 2
  else if b < 0xF0 then 3
  else if b < 0xF5 then 4
  else 0

/-- Admissible first continuation byte of a three-byte sequence (narrowed for
0xE0 to exclude overlong forms and for 0xED to exclude surrogates). -/
def utf8Cont2 (b c1 : Nat) : Bool :=
  if b == 0xE0 then decide (0xA0 ≤ c1) && decide (c1 < 0xC0)
  else if b == 0xED then decide (0x80 ≤ c1) && decide (c1 < 0xA0)
  else isCont c1

/-- Admissible first continuation byte of a four-byte sequence (narrowed for
0xF0 against overlong forms and for 0xF4 to stay below U+110000). -/
def utf8Cont3 (b c1 : Nat) : Bool :=
  if b == 0xF0 then decide (0x90 ≤ c1) && decide (c1 < 0xC0)
  else if b == 0xF4 then decide (0x80 ≤ c1) && decide (c1 < 0x90)
  else isCont c1

/-- Consume one complete UTF-8 sequence led by `b` with remaining input
`rest`: the sequence length and the input after it, or `none` if the bytes at
this position are not a well-formed sequence. -/
def utf8Step (b : Nat) (rest : List Nat) : Option (Nat × List Nat) :=
  if utf8Class b = 1 then some (1, rest)
  else if utf8Class b = 2 then
    match rest with
    | c :: rest2 => if isCont c then some (2, rest2) else none
    | [] => none
  else if utf8Class b = 3 then
    match rest with
    | c1 :: c2 :: rest2 => if utf8Cont2 b c1 && isCont c2 then some (3, rest2) else none
    | _ => none
  else if utf8Class b = 4 then
    match rest with
    | c1 :: c2 :: c3 :: rest2 =>
      if utf8Cont3 b c1 && isCont c2 && isCont c3 then some (4, rest2) else none
    | _ => none
  else none

/-- Fuel-driven UTF-8 scan: repeatedly consume sequences, reporting the index
(relative to `i`) of the first offending byte.  Each step consumes at least
one byte, so fuel equal to the input length is always sufficient. -/
def utf8Scan : Nat → List Nat → Nat → Option Nat
  | 0, _, _ => none
  | _ + 1, [], _ => none
  | f + 1, b :: rest, i =>
    match utf8Step b rest with
    | some (n, rest2) => utf8Scan f rest2 (i + n)
    | none => some i

/-- Index (relative to `i`) of the first byte at which the sequence stops being
well-formed UTF-8, or `none` if the whole sequence is well-formed.  The scanner
rejects overlong forms, surrogates and code points above U+10FFFF. -/
def utf8FirstBad (s : List Nat) (i : Nat) : Option Nat := utf8Scan s.length s i

/-- Well-formedness of a UTF-8 byte sequence. -/
def validUtf8 (s : List Nat) : Bool := (utf8FirstBad s 0).isNone

/-- KODA data model (spec section 3): a tagged variant with seven cases.
Floats are carried as their binary64 bit patterns. -/
inductive Value where
  | null
  | bool (b : Bool)
  | int (i : Int)
  | float (bits : Nat)
  | str (s : List Nat)
  | arr (elems : List Value)
  | obj (pairs : List (Key × Value))

/-- Check whether a binary64 bit pattern denotes a NaN. -/
def isNaNBits (b : Nat) : Bool := decide (b / 2 ^ 52 % 2 ^ 11 = 0x7FF) && decide (b % 2 ^ 52 ≠ 0)

/-- Canonical quiet-NaN collapse used by the encoder (spec section 4.3):
every NaN bit pattern becomes 0x7FF8000000000000, all other patterns are kept. -/
def canonNaNBits (b : Nat) : Nat := if isNaNBits b then 0x7FF8000000000000 else b

/-- Ordering of object pairs by their keys, as a proposition. -/
def pairLe (a b : Key × Value) : Prop := lexLe a.1 b.1 = true

instance : DecidableRel pairLe := fun a b => decEq (lexLe a.1 b.1) true

/-- Sort object pairs by key, lexicographically on UTF-8 bytes. -/
def sortPairs (ps : List (Key × Value)) : List (Key × Value) := ps.insertionSort pairLe

/-- Ordering of dictionary keys, as a proposition. -/
def keyLe (a b : Key) : Prop := lexLe a b = true

instance : DecidableRel keyLe := fun a b => decEq (lexLe a b) true

mutual
/-- Structural (order-sensitive, bit-exact) equality test on Values. -/
def beqV : Value → Value → Bool
  | .null, .null => true
  | .bool a, .bool b => a == b
  | .int a, .int b => a == b
  | .float a, .float b => a == b
  | .str a, .str b => a == b
  | .arr a, .arr b => beqL a b
  | .obj a, .obj b => beqP a b
  | _, _ => false
/-- Pointwise equality of Value lists. -/
def beqL : List Value → List Value → Bool
  | [], [] => true
  | x :: xs, y :: ys => beqV x y && beqL xs ys
  | _, _ => false
/-- Pointwise equality of object pair lists. -/
def beqP : List (Key × Value) → List (Key × Value) → Bool
  | [], [] => true
  | (k1, v1) :: ps, (k2, v2) :: qs => k1 == k2 && beqV v1 v2 && beqP ps qs
  | _, _ => false
end

mutual
/-- Canonical form of a Value: every object pair list is sorted by key and
every NaN float is collapsed to the canonical quiet NaN.  The encoder encodes
exactly this form (spec sections 4.3 and 9). -/
def canon : Value → Value
  | .null => .null
  | .bool b => .bool b
  | .int i => .int i
  | .float b => .float (canonNaNBits b)
  | .str s => .str s
  | .arr es => .arr (canonL es)
  | .obj ps => .obj (sortPairs (canonP ps))
/-- Canonical form, mapped over a list of Values. -/
def canonL : List Value → List Value
  | [] => []
  | v :: vs => canon v :: canonL vs
/-- Canonical form, mapped over the values of an object pair list. -/
def canonP : List (Key × Value) → List (Key × Value)
  | [] => []
  | (k, v) :: ps => (k, canon v) :: canonP ps
end

/-- Structural equality of Values in the sense of spec section 4.6 together
with the canonicalization note of section 4.4: object key order is irrelevant,
numbers compare by kind and bits except that all NaNs are identified.  Two
Values are structurally equal iff their canonical forms coincide. -/
def structEq (v w : Value) : Bool := beqV (canon v) (canon w)

mutual
/-- Depth of a Value: 1 for scalars, 1 + maximal child depth for containers
(spec section 3). -/
def depthOf : Value → Nat
  | .null => 1
  | .bool _ => 1
  | .int _ => 1
  | .float _ => 1
  | .str _ => 1
  | .arr es => 1 + depthL es
  | .obj ps => 1 + depthP ps
/-- Maximal depth of a list of Values. -/
def depthL : List Value → Nat
  | [] => 0
  | v :: vs => max (depthOf v) (depthL vs)
/-- Maximal depth of the values of an object pair list. -/
def depthP : List (Key × Value) → Nat
  | [] => 0
  | (_, v) :: ps => max (depthOf v) (depthP ps)
end

mutual
/-- All object keys occurring anywhere in a Value, in document order, with
multiplicity. -/
def collKeys : Value → List Key
  | .null => []
  | .bool _ => []
  | .int _ => []
  | .float _ => []
  | .str _ => []
  | .arr es => collKeysL es
  | .obj ps => collKeysP ps
/-- Keys occurring in a list of Values. -/
def collKeysL : List Value → List Key
  | [] => []
  | v :: vs => collKeys v ++ collKeysL vs
/-- Keys occurring in an object pair list, each pair contributing its key and
the keys of its value. -/
def collKeysP : List (Key × Value) → List Key
  | [] => []
  | (k, v) :: ps => k :: (collKeys v ++ collKeysP ps)
end

/-- Modelled from the spec: the key dictionary of a document (spec section
4.3) - the keys used in any object, deduplicated by byte equality and sorted
lexicographically by UTF-8 bytes. -/
def dictOf (v : Value) : List Key := ((collKeys v).dedup).insertionSort keyLe

/-- Index of a key in the dictionary: position of its first byte-equal
occurrence (the dictionary ID of spec section 4.3). -/
def keyIdx (d : List Key) (k : Key) : Nat :=
  match d with
  | [] => 0
  | a :: rest => if a = k then 0 else keyIdx rest k + 1

/-- Big-endian 4-byte encoding of a 32-bit unsigned integer. -/
def u32be (n : Nat) : List Nat :=
  [n / 2 ^ 24 % 256, n / 2 ^ 16 % 256, n / 2 ^ 8 % 256, n % 256]

/-- Big-endian 8-byte encoding of a 64-bit unsigned integer. -/
def u64be (n : Nat) : List Nat :=
  [n / 2 ^ 56 % 256, n / 2 ^ 48 % 256, n / 2 ^ 40 % 256, n / 2 ^ 32 % 256,
   n / 2 ^ 24 % 256, n / 2 ^ 16 % 256, n / 2 ^ 8 % 256, n % 256]

/-- Value of a big-endian byte sequence. -/
def beVal (bs : List Nat) : Nat := bs.foldl (fun a b => a * 256 + b) 0

mutual
/-- Modelled from the spec: the data-section encoding of one (canonical)
Value against a fixed key dictionary - one tag byte followed by the
tag-specific body (spec section 4.3). -/
def emit (dict : List Key) : Value → List Nat
  | .null => [0x01]
  | .bool false => [0x02]
  | .bool true => [0x03]
  | .int i => 0x04 :: u64be (i.emod (2 ^ 64)).toNat
  | .float b => 0x05 :: u64be b
  | .str s => 0x06 :: (u32be s.length ++ s)
  | .arr es => 0x10 :: (u32be es.length ++ emitL dict es)
  | .obj ps => 0x11 :: (u32be ps.length ++ emitP dict ps)
/-- Concatenated encodings of a list of Values. -/
def emitL (dict : List Key) : List Value → List Nat
  | [] => []
  | v :: vs => emit dict v ++ emitL dict vs
/-- Concatenated encodings of object pairs: 4-byte key index, then the value. -/
def emitP (dict : List Key) : List (Key × Value) → List Nat
  | [] => []
  | (k, v) :: ps => u32be (keyIdx dict k) ++ emit dict v ++ emitP dict ps
end

/-- Encoder options (spec section 6). -/
structure EncodeOptions where
  maxDepth : Nat := 256

/-- Encoder failure kinds (spec section 4.3). -/
inductive EncodeError where
  | depthExceeded
  | invalidUtf8
  | duplicateKey
  | tooLarge

mutual
/-- Check that every string payload and every object key in a Value is
well-formed UTF-8. -/
def utf8OkV : Value → Bool
  | .null => true
  | .bool _ => true
  | .int _ => true
  | .float _ => true
  | .str s => validUtf8 s
  | .arr es => utf8OkL es
  | .obj ps => utf8OkP ps
/-- UTF-8 check over a list of Values. -/
def utf8OkL : List Value → Bool
  | [] => true
  | v :: vs => utf8OkV v && utf8OkL vs
/-- UTF-8 check over an object pair list (keys included). -/
def utf8OkP : List (Key × Value) → Bool
  | [] => true
  | (k, v) :: ps => validUtf8 k && utf8OkV v && utf8OkP ps
end

/-- Check that a list of keys has no byte-equal duplicates. -/
def keysNodupB : List Key → Bool
  | [] => true
  | k :: ks => !(decide (k ∈ ks)) && keysNodupB ks

mutual
/-- Check that no object anywhere in a Value has two byte-equal keys. -/
def noDupV : Value → Bool
  | .null => true
  | .bool _ => true
  | .int _ => true
  | .float _ => true
  | .str _ => true
  | .arr es => noDupL es
  | .obj ps => keysNodupB (ps.map Prod.fst) && noDupP ps
/-- Duplicate-key check over a list of Values. -/
def noDupL : List Value → Bool
  | [] => true
  | v :: vs => noDupV v && noDupL vs
/-- Duplicate-key check over an object pair list. -/
def noDupP : List (Key × Value) → Bool
  | [] => true
  | (_, v) :: ps => noDupV v && noDupP ps
end

/-- Check that an integer lies in the signed 64-bit range of the data model. -/
def intInRange (i : Int) : Bool :=
  decide (-((2 ^ 63 : Nat) : Int) ≤ i) && decide (i < ((2 ^ 63 : Nat) : Int))

mutual
/-- Check the size-related encoder constraints: counts and lengths fit in
u32, integers fit in int64, float patterns fit in 64 bits. -/
def sizesOkV : Value → Bool
  | .null => true
  | .bool _ => true
  | .int i => intInRange i
  | .float b => decide (b < 2 ^ 64)
  | .str s => decide (s.length < 2 ^ 32)
  | .arr es => decide (es.length < 2 ^ 32) && sizesOkL es
  | .obj ps =>
    decide (ps.length < 2 ^ 32) &&
    (ps.map Prod.fst).all (fun k => decide (k.length < 2 ^ 32)) && sizesOkP ps
/-- Size check over a list of Values. -/
def sizesOkL : List Value → Bool
  | [] => true
  | v :: vs => sizesOkV v && sizesOkL vs
/-- Size check over an object pair list. -/
def sizesOkP : List (Key × Value) → Bool
  | [] => true
  | (_, v) :: ps => sizesOkV v && sizesOkP ps
end

/-- The four magic bytes of a `.kod` document, ASCII "KODA". -/
def magicBytes : List Nat := [0x4B, 0x4F, 0x44, 0x41]

/-- Dictionary entry on the wire: 4-byte big-endian length, then the key bytes. -/
def dictEntryBytes (k : Key) : List Nat := u32be k.length ++ k

/-- Dictionary section on the wire: 4-byte count, then the entries in order. -/
def dictBytes (dict : List Key) : List Nat :=
  u32be dict.length ++ (dict.map dictEntryBytes).flatten

/-- Modelled from the spec: the full canonical encoding of a Value - magic,
version 1, dictionary, then the data section of the canonical form. -/
def encodeBytes (v : Value) : List Nat :=
  magicBytes ++ [1] ++ dictBytes (dictOf v) ++ emit (dictOf v) (canon v)

/-- Modelled from the spec: the binary encoder (spec section 4.3, the
`encode` entry point of section 6; the shipped `encoder.ts` / `koda_binary.cc`
are not in the bundle).  It rejects over-deep values, invalid UTF-8,
duplicate object keys and u32 overflows, and otherwise produces the canonical
byte sequence. -/
def encode (v : Value) (o : EncodeOptions) : Except EncodeError (List Nat) :=
  if o.maxDepth < depthOf v then .error .depthExceeded
  else if utf8OkV v = false then .error .invalidUtf8
  else if noDupV v = false then .error .duplicateKey
  else if (sizesOkV v && decide ((dictOf v).length < 2 ^ 32)) = false then .error .tooLarge
  else .ok (encodeBytes v)

/-- Decoder options (spec section 6, defaults from section 5). -/
structure DecodeOptions where
  maxDepth : Nat := 256
  maxDictionarySize : Nat := 65536
  maxStringLength : Nat := 1000000

/-- Decode failure kinds (spec sections 4.4 and 7). -/
inductive DecodeErrKind where
  | truncated
  | badMagic
  | badVersion
  | dictTooLarge
  | dictEntryTooLong
  | dictInvalidUtf8
  | dictNotSorted
  | badTag
  | strInvalidUtf8
  | badKeyIndex
  | keysNotAscending
  | depthExceeded
  | trailingBytes

/-- Decode error: the reason kind plus the byte offset into the input at
which validation failed (spec section 7). -/
structure DecodeError where
  offset : Nat
  kind : DecodeErrKind

/-- Read one byte; `pos` is the absolute offset of the head of `rem`. -/
def readByteAt : List Nat → Nat → Except DecodeError (Nat × List Nat × Nat)
  | [], pos => .error ⟨pos, .truncated⟩
  | b :: rest, pos => .ok (b, rest, pos + 1)

/-- Read `n` bytes, failing at the end of the input if fewer remain. -/
def readBytesAt (n : Nat) (rem : List Nat) (pos : Nat) :
    Except DecodeError (List Nat × List Nat × Nat) :=
  if n ≤ rem.length then .ok (rem.take n, rem.drop n, pos + n)
  else .error ⟨pos + rem.length, .truncated⟩

/-- Read a 4-byte big-endian unsigned integer. -/
def readU32At (rem : List Nat) (pos : Nat) : Except DecodeError (Nat × List Nat × Nat) := do
  let (bs, rem1, pos1) ← readBytesAt 4 rem pos
  .ok (beVal bs, rem1, pos1)

/-- Read an 8-byte big-endian unsigned integer. -/
def readU64At (rem : List Nat) (pos : Nat) : Except DecodeError (Nat × List Nat × Nat) := do
  let (bs, rem1, pos1) ← readBytesAt 8 rem pos
  .ok (beVal bs, rem1, pos1)

/-- Signed interpretation of a 64-bit two's-complement value. -/
def intOfU64 (n : Nat) : Int := if n < 2 ^ 63 then (n : Int) else (n : Int) - 2 ^ 64

/-- Strict ascending check on object key indices. -/
def ascOk (prev : Option Nat) (idx : Nat) : Bool :=
  match prev with
  | none => true
  | some p => p < idx

/-- Strict lexicographic ascending check on dictionary entries. -/
def dictAscOk (prev : Option Key) (k : Key) : Bool :=
  match prev with
  | none => true
  | some p => lexLt p k

/-- Modelled from the spec: read `n` dictionary entries (spec section 4.4
step 3), enforcing the string-length bound, UTF-8 well-formedness and strict
lexicographic order. -/
def parseDict (o : DecodeOptions) : Nat → Option Key → List Nat → Nat →
    Except DecodeError (List Key × List Nat × Nat)
  | 0, _, rem, pos => .ok ([], rem, pos)
  | n + 1, prev, rem, pos => do
    let (len, rem1, pos1) ← readU32At rem pos
    if o.maxStringLength < len then .error ⟨pos, .dictEntryTooLong⟩
    else do
      let (kb, rem2, pos2) ← readBytesAt len rem1 pos1
      match utf8FirstBad kb 0 with
      | some j => .error ⟨pos1 + j, .dictInvalidUtf8⟩
      | none =>
        if dictAscOk prev kb then do
          let (ks, rem3, pos3) ← parseDict o n (some kb) rem2 pos2
          .ok (kb :: ks, rem3, pos3)
        else .error ⟨pos, .dictNotSorted⟩

/-- Modelled from the spec: read `n` consecutive encoded values with a fixed
per-value parser. -/
def parseElems (pv : List Nat → Nat → Except DecodeError (Value × List Nat × Nat)) :
    Nat → List Nat → Nat → Except DecodeError (List Value × List Nat × Nat)
  | 0, rem, pos => .ok ([], rem, pos)
  | n + 1, rem, pos => do
    let (v, rem1, pos1) ← pv rem pos
    let (vs, rem2, pos2) ← parseElems pv n rem1 pos1
    .ok (v :: vs, rem2, pos2)

/-- Modelled from the spec: read `n` object pairs - 4-byte key index (which
must be in range and strictly ascending), then the value (spec section 4.4). -/
def parsePairs (pv : List Nat → Nat → Except DecodeError (Value × List Nat × Nat))
    (dict : List Key) :
    Nat → Option Nat → List Nat → Nat →
    Except DecodeError (List (Key × Value) × List Nat × Nat)
  | 0, _, rem, pos => .ok ([], rem, pos)
  | n + 1, prev, rem, pos => do
    let (idx, rem1, pos1) ← readU32At rem pos
    if hidx : idx < dict.length then
      if ascOk prev idx then do
        let (v, rem2, pos2) ← pv rem1 pos1
        let (ps, rem3, pos3) ← parsePairs pv dict n (some idx) rem2 pos2
        .ok ((dict.get ⟨idx, hidx⟩, v) :: ps, rem3, pos3)
      else .error ⟨pos, .keysNotAscending⟩
    else .error ⟨pos, .badKeyIndex⟩

/-- Modelled from the spec: read one encoded value (spec section 4.4).  The
fuel argument is the remaining nesting allowance; it starts at `maxDepth`
and reaching 0 means the depth bound is exceeded. -/
def parseValue (dict : List Key) : Nat → List Nat → Nat →
    Except DecodeError (Value × List Nat × Nat)
  | 0, _, pos => .error ⟨pos, .depthExceeded⟩
  | fuel + 1, rem, pos => do
    let (tag, rem1, pos1) ← readByteAt rem pos
    if tag = 0x01 then .ok (.null, rem1, pos1)
    else if tag = 0x02 then .ok (.bool false, rem1, pos1)
    else if tag = 0x03 then .ok (.bool true, rem1, pos1)
    else if tag = 0x04 then do
      let (n, rem2, pos2) ← readU64At rem1 pos1
      .ok (.int (intOfU64 n), rem2, pos2)
    else if tag = 0x05 then do
      let (n, rem2, pos2) ← readU64At rem1 pos1
      .ok (.float n, rem2, pos2)
    else if tag = 0x06 then do
      let (len, rem2, pos2) ← readU32At rem1 pos1
      let (s, rem3, pos3) ← readBytesAt len rem2 pos2
      match utf8FirstBad s 0 with
      | some j => .error ⟨pos2 + j, .strInvalidUtf8⟩
      | none => .ok (.str s, rem3, pos3)
    else if tag = 0x10 then do
      let (n, rem2, pos2) ← readU32At rem1 pos1
      let (es, rem3, pos3) ← parseElems (fun r p => parseValue dict fuel r p) n rem2 pos2
      .ok (.arr es, rem3, pos3)
    else if tag = 0x11 then do
      let (n, rem2, pos2) ← readU32At rem1 pos1
      let (ps, rem3, pos3) ← parsePairs (fun r p => parseValue dict fuel r p) dict n none rem2 pos2
      .ok (.obj ps, rem3, pos3)
    else .error ⟨pos, .badTag⟩

/-- Modelled from the spec: the binary decoder (spec section 4.4, the
`decodeSync` algorithm; the shipped `decoder.ts` / `koda_binary.cc` are not
in the bundle).  Header, dictionary, single root value, then the
trailing-bytes check, in the validation order of the spec. -/
def decodeBinary (bytes : List Nat) (o : DecodeOptions) : Except DecodeError Value := do
  let (magic, rem1, pos1) ← readBytesAt 4 bytes 0
  if magic ≠ magicBytes then .error ⟨0, .badMagic⟩
  else do
    let (ver, rem2, pos2) ← readByteAt rem1 pos1
    if ver ≠ 1 then .error ⟨4, .badVersion⟩
    else do
      let (n, rem3, pos3) ← readU32At rem2 pos2
      if o.maxDictionarySize < n then .error ⟨5, .dictTooLarge⟩
      else do
        let (dict, rem4, pos4) ← parseDict o n none rem3 pos3
        let (v, rem5, pos5) ← parseValue dict o.maxDepth rem4 pos4
        if rem5 = [] then .ok v else .error ⟨pos5, .trailingBytes⟩

/-- JS fallback path of `decodeSync` in `src/index.ts` (no native addon
loaded): it simply runs the synchronous binary decoder. -/
def decodeSyncJs (buffer : List Nat) (o : DecodeOptions) : Except DecodeError Value :=
  decodeBinary buffer o

/-- Human-readable text for each decode failure kind. -/
def errKindText : DecodeErrKind → String
  | .truncated => "unexpected end of input"
  | .badMagic => "invalid magic"
  | .badVersion => "unsupported version"
  | .dictTooLarge => "dictionary too large"
  | .dictEntryTooLong => "dictionary entry too long"
  | .dictInvalidUtf8 => "invalid UTF-8 in dictionary"
  | .dictNotSorted => "dictionary not in canonical order"
  | .badTag => "unknown type tag"
  | .strInvalidUtf8 => "invalid UTF-8 in string"
  | .badKeyIndex => "key index out of range"
  | .keysNotAscending => "object keys not in canonical order"
  | .depthExceeded => "maximum depth exceeded"
  | .trailingBytes => "trailing bytes after value"

/-- Message string of a decode error, offset included. -/
def renderDecodeError (e : DecodeError) : String :=
  errKindText e.kind ++ " at byte " ++ toString e.offset

/-- Incoming decoder-worker message (`DecoderWorkerMessageIn` in
`src/worker/decoder-worker.ts`). -/
structure DecoderWorkerMessageIn where
  id : Nat
  buffer : List Nat
  options : DecodeOptions

/-- Outgoing decoder-worker message: either `{id, value}` on success or
`{id, error}` with the error flattened to its message string
(`DecoderWorkerMessageOutSuccess` / `DecoderWorkerMessageOutError`). -/
inductive DecoderWorkerMessageOut where
  | success (id : Nat) (value : Value)
  | failure (id : Nat) (error : String)

/-- The worker's `doDecode` on the JS fallback path (no native addon in the
worker): decode the transferred buffer with the shared options. -/
def doDecode (buffer : List Nat) (options : DecodeOptions) : Except DecodeError Value :=
  decodeBinary buffer options

/-- The worker's `parentPort.on('message')` handler: run `doDecode`, post
`{id, value}` on success, and on failure post `{id, error}` where `error` is
only the thrown error's message string. -/
def workerOnMessage (msg : DecoderWorkerMessageIn) : DecoderWorkerMessageOut :=
  match doDecode msg.buffer msg.options with
  | .ok v => .success msg.id v
  | .error e => .failure msg.id (renderDecodeError e)

/-- Modelled from the spec: the async `decode` entry point ("off-thread
wrapper over decodeSync"; the shipped `decode-async.ts` is not in the
bundle) - the settled outcome of the promise, a Value on resolution or the
worker-reported message string on rejection. -/
def decodeAsyncResult (buffer : List Nat) (options : DecodeOptions) : Except String Value :=
  match workerOnMessage ⟨0, buffer, options⟩ with
  | .success _ v => .ok v
  | .failure _ m => .error m

/-- Host-side (JavaScript / N-API) values as seen by the binding in
`binding.cc`: the cases distinguished by the `NapiToValue` if-chain.
Numbers are binary64 and carried as their bit patterns; `other` stands for
any host value that is none of the listed kinds. -/
inductive NapiValue where
  | null
  | undefined
  | bool (b : Bool)
  | num (bits : Nat)
  | str (s : List Nat)
  | arr (elems : List NapiValue)
  | obj (pairs : List (Key × NapiValue))
  | other

/-- Exact value of a finite binary64 number, written as mantissa times a
power of two. -/
structure FiniteDouble where
  m : Int
  e : Int

/-- Decode a binary64 bit pattern into its exact finite value, or `none` for
an infinity or NaN (exponent field all ones). -/
def finiteOfBits (bits : Nat) : Option FiniteDouble :=
  let sign : Nat := bits / 2 ^ 63 % 2
  let ex : Nat := bits / 2 ^ 52 % 2 ^ 11
  let mant : Nat := bits % 2 ^ 52
  if ex = 2047 then none
  else
    let mag : Int × Int :=
      if ex = 0 then ((mant : Int), (-1074 : Int))
      else ((((2 : Nat) ^ 52 + mant : Nat) : Int), (ex : Int) - 1075)
    some ⟨if sign = 1 then -mag.1 else mag.1, mag.2⟩

/-- Comparison `f ≤ n` between the exact value of a finite double and an
integer. -/
def fdLeInt (f : FiniteDouble) (n : Int) : Bool :=
  if 0 ≤ f.e then decide (f.m * ((2 ^ f.e.toNat : Nat) : Int) ≤ n)
  else decide (f.m ≤ n * ((2 ^ (-f.e).toNat : Nat) : Int))

/-- Comparison `n ≤ f` between an integer and the exact value of a finite
double. -/
def intLeFd (n : Int) (f : FiniteDouble) : Bool :=
  if 0 ≤ f.e then decide (n ≤ f.m * ((2 ^ f.e.toNat : Nat) : Int))
  else decide (n * ((2 ^ (-f.e).toNat : Nat) : Int) ≤ f.m)

/-- Truncation toward zero of a finite double, the behaviour of the C++
`static_cast<int64_t>` in `NapiToValue` (defined for the in-range values the
cast is guarded by). -/
def fdTruncInt (f : FiniteDouble) : Int :=
  if 0 ≤ f.e then f.m * ((2 ^ f.e.toNat : Nat) : Int)
  else f.m.tdiv ((2 ^ (-f.e).toNat : Nat) : Int)

/-- Value equality between an integer and a finite double.  In `NapiToValue`
the check `static_cast<double>(i) == d` runs with `|d| ≤ 2^53`, so `i` is
exactly representable and the double comparison is exact value equality
(note that this also equates -0.0 with 0, as `==` on doubles does). -/
def intEqFd (n : Int) (f : FiniteDouble) : Bool :=
  if 0 ≤ f.e then decide (n = f.m * ((2 ^ f.e.toNat : Nat) : Int))
  else decide (n * ((2 ^ (-f.e).toNat : Nat) : Int) = f.m)

mutual
/-- Translation of `NapiToValue` in `binding.cc`: host null and undefined
become Null, booleans stay, a number becomes Int when it lies in
[-2^53, 2^53] and truncates to itself, and otherwise stays Float; strings,
arrays and objects convert structurally; anything else becomes Null. -/
def napiToValue : NapiValue → Value
  | .null => .null
  | .undefined => .null
  | .bool b => .bool b
  | .num bits =>
    match finiteOfBits bits with
    | none => .float bits
    | some f =>
      if intLeFd (-((2 ^ 53 : Nat) : Int)) f && fdLeInt f ((2 ^ 53 : Nat) : Int) then
        if intEqFd (fdTruncInt f) f then .int (fdTruncInt f) else .float bits
      else .float bits
  | .str s => .str s
  | .arr es => .arr (napiToValueL es)
  | .obj ps => .obj (napiToValueP ps)
  | .other => .null
/-- `NapiToValue` mapped over array elements. -/
def napiToValueL : List NapiValue → List Value
  | [] => []
  | v :: vs => napiToValue v :: napiToValueL vs
/-- `NapiToValue` mapped over object properties. -/
def napiToValueP : List (Key × NapiValue) → List (Key × Value)
  | [] => []
  | (k, v) :: ps => (k, napiToValue v) :: napiToValueP ps
end

/-- Fuel-driven binary logarithm (floor), used to normalize integers when
rounding them to binary64. -/
def log2Aux : Nat → Nat → Nat
  | 0, _ => 0
  | f + 1, n => if n ≤ 1 then 0 else 1 + log2Aux f (n / 2)

/-- Floor of the binary logarithm of a positive natural number. -/
def natLog2 (n : Nat) : Nat := log2Aux n n

/-- Bit pattern of the binary64 double nearest to a positive integer
(round to nearest, ties to even) - the behaviour of the C++
`static_cast<double>(int64_t)` for positive inputs. -/
def doubleBitsOfPos (n : Nat) : Nat :=
  let b := natLog2 n
  if b ≤ 52 then (b + 1022) * 2 ^ 52 + n * 2 ^ (52 - b)
  else
    let shift := b - 52
    let q := n / 2 ^ shift
    let r := n % 2 ^ shift
    let half := 2 ^ (shift - 1)
    let q1 := if half < r || (r == half && q % 2 == 1) then q + 1 else q
    (b + 1022) * 2 ^ 52 + q1

/-- Bit pattern of the binary64 double nearest to a signed 64-bit integer -
the `static_cast<double>(v.i)` conversion in `ValueToNapi`. -/
def doubleBitsOfInt (i : Int) : Nat :=
  if i = 0 then 0
  else if 0 ≤ i then doubleBitsOfPos i.toNat
  else 2 ^ 63 + doubleBitsOfPos (-i).toNat

mutual
/-- Translation of `ValueToNapi` in `binding.cc`: Null, Bool, String, Array
and Object convert structurally; an Int is converted to a host number by
casting the int64 to double (rounding to the nearest representable value);
a Float keeps its bit pattern. -/
def valueToNapi : Value → NapiValue
  | .null => .null
  | .bool b => .bool b
  | .int i => .num (doubleBitsOfInt i)
  | .float b => .num b
  | .str s => .str s
  | .arr es => .arr (valueToNapiL es)
  | .obj ps => .obj (valueToNapiP ps)
/-- `ValueToNapi` mapped over array elements. -/
def valueToNapiL : List Value → List NapiValue
  | [] => []
  | v :: vs => valueToNapi v :: valueToNapiL vs
/-- `ValueToNapi` mapped over object pairs. -/
def valueToNapiP : List (Key × Value) → List (Key × NapiValue)
  | [] => []
  | (k, v) :: ps => (k, valueToNapi v) :: valueToNapiP ps
end

/-- Native path of `decodeSync` in `src/index.ts` with the addon loaded:
`NativeDecode` runs the C++ decoder and surfaces the result through
`ValueToNapi`. -/
def decodeSyncNative (buffer : List Nat) (o : DecodeOptions) : Except DecodeError NapiValue :=
  (decodeBinary buffer o).map valueToNapi

/-- Native path of `encode` in `src/index.ts` with the addon loaded:
`NativeEncode` converts the host value through `NapiToValue` and runs the
C++ encoder. -/
def encodeNative (h : NapiValue) (o : EncodeOptions) : Except EncodeError (List Nat) :=
  encode (napiToValue h) o

/-- Options record accepted by the native parser (`native.ts` declares
`parse(text, options?: { maxDepth?: number })`): only `maxDepth`. -/
structure NativeParseOptions where
  maxDepth : Option Nat

/-- Options of the public `parse` entry point (`ParseOptions`): `maxDepth`
and `maxInputLength`. -/
structure ParseOptions where
  maxDepth : Option Nat := none
  maxInputLength : Option Nat := none

/-- The options object built by `parse` in `src/index.ts` line 56 when
forwarding to the native addon: `{ maxDepth: options?.maxDepth }`. -/
def nativeParseOptionsOf (o : ParseOptions) : NativeParseOptions := ⟨o.maxDepth⟩

/-- Text-side parse error carrying a message (`KodaParseError`). -/
structure KodaParseError where
  message : String

/-- Message of the input-size rejection. -/
def inputTooLargeMsg : String := "input too large"

/-- Modelled from the spec: the `maxInputLength` guard of the JS text parser
(`parseFast.ts` is not in the bundle; the spec says the option "rejects
before parsing if input length exceeds the bound").  The parser proper is
abstracted as `core`; the guard rejects before ever invoking it. -/
def parseFastGuard (core : String → ParseOptions → Except KodaParseError Value)
    (text : String) (o : ParseOptions) : Except KodaParseError Value :=
  match o.maxInputLength with
  | some m => if m < text.length then .error ⟨inputTooLargeMsg⟩ else core text o
  | none => core text o

/-- Shape of the native binding object returned by the addon (`NativeBinding`
in `native.ts`): the four entry points. -/
structure NativeBinding where
  parseFn : String → NativeParseOptions → Except String Value
  stringifyFn : Value → String
  encodeFn : Value → Option Nat → Except String (List Nat)
  decodeFn : List Nat → DecodeOptions → Except String Value

/-- Raw module object as returned by `require`: each of the four members may
or may not be a function (the `typeof` checks in `loadNative`). -/
structure RawBinding where
  parseFn : Option (String → NativeParseOptions → Except String Value)
  stringifyFn : Option (Value → String)
  encodeFn : Option (Value → Option Nat → Except String (List Nat))
  decodeFn : Option (List Nat → DecodeOptions → Except String Value)

/-- Translation of `loadNative` in `native.ts`, with the module-level
`cached` variable made explicit as state (`none` models the initial
`undefined`).  `requireAddon` stands for the host `createRequire` call, which
may throw (`.error`) or return a module object.  The function returns the
binding (or null) together with the updated cache. -/
def loadNative (requireAddon : String → String → Except Unit RawBinding)
    (cached : Option (Option NativeBinding)) (callerUrl addonPath : String) :
    Option NativeBinding × Option (Option NativeBinding) :=
  match cached with
  | some r => (r, some r)
  | none =>
    match requireAddon callerUrl addonPath with
    | .ok raw =>
      match raw.parseFn, raw.stringifyFn, raw.encodeFn, raw.decodeFn with
      | some p, some s, some e, some d => (some ⟨p, s, e, d⟩, some (some ⟨p, s, e, d⟩))
      | _, _, _, _ => (none, some none)
    | .error _ => (none, some none)

/-- Encoder acceptance: all checks of `encode` pass. -/
def encOk (v : Value) (o : EncodeOptions) : Bool :=
  decide (depthOf v ≤ o.maxDepth) && utf8OkV v && noDupV v && sizesOkV v &&
  decide ((dictOf v).length < 2 ^ 32)

/-- Compatibility of a Value with the decoder bounds: its depth, dictionary
size and dictionary entry lengths stay within the given options. -/
def decodeCompat (v : Value) (o : DecodeOptions) : Bool :=
  decide (depthOf v ≤ o.maxDepth) && decide ((dictOf v).length ≤ o.maxDictionarySize) &&
  (dictOf v).all (fun k => decide (k.length ≤ o.maxStringLength))

/-- Well-formedness of a Value for the default-options binary round trip:
the encoder accepts it and it stays inside the decoder's default bounds. -/
def roundTripOk (v : Value) : Bool := encOk v {} && decodeCompat v {}

/-- Post-condition of the streaming parsers: a failure carries an offset at
or before the end of the remaining input, and a success consumes exactly the
bytes between its start and end positions. -/
def parserBound {α : Type} (pos len : Nat) : Except DecodeError (α × List Nat × Nat) → Prop
  | .error e => e.offset ≤ pos + len
  | .ok (_, rem2, pos2) => pos2 + rem2.length = pos + len ∧ pos ≤ pos2

/-- Check that a key list is strictly lexicographically increasing. -/
def keysStrictInc : List Key → Bool
  | [] => true
  | [_] => true
  | a :: b :: rest => lexLt a b && keysStrictInc (b :: rest)

mutual
/-- Invariant of canonical-form Values relative to a dictionary: bounds hold,
NaNs are collapsed, strings are valid UTF-8, object keys are strictly
ascending and all present in the dictionary.  The decoder reproduces exactly
the values with this shape. -/
def canonGoodV (dict : List Key) : Value → Bool
  | .null => true
  | .bool _ => true
  | .int i => intInRange i
  | .float b => decide (b < 2 ^ 64) && (canonNaNBits b == b)
  | .str s => decide (s.length < 2 ^ 32) && validUtf8 s
  | .arr es => decide (es.length < 2 ^ 32) && canonGoodL dict es
  | .obj ps =>
    decide (ps.length < 2 ^ 32) && keysStrictInc (ps.map Prod.fst) &&
    (ps.map Prod.fst).all (fun k => decide (k ∈ dict)) && canonGoodP dict ps
/-- Canonical-form invariant over a list of Values. -/
def canonGoodL (dict : List Key) : List Value → Bool
  | [] => true
  | v :: vs => canonGoodV dict v && canonGoodL dict vs
/-- Canonical-form invariant over an object pair list. -/
def canonGoodP (dict : List Key) : List (Key × Value) → Bool
  | [] => true
  | (_, v) :: ps => canonGoodV dict v && canonGoodP dict ps
end

/-- Structural induction principle for Values, with membership induction
hypotheses for the two container cases. -/
def valueInd (P : Value → Prop)
    (hnull : P .null) (hbool : ∀ b, P (.bool b)) (hint : ∀ i, P (.int i))
    (hfloat : ∀ b, P (.float b)) (hstr : ∀ s, P (.str s))
    (harr : ∀ es, (∀ e ∈ es, P e) → P (.arr es))
    (hobj : ∀ ps, (∀ p ∈ ps, P p.2) → P (.obj ps)) : ∀ v, P v
  | .null => hnull
  | .bool b => hbool b
  | .int i => hint i
  | .float b => hfloat b
  | .str s => hstr s
  | .arr es => harr es (fun e he =>
      have : sizeOf e < 1 + sizeOf es := Nat.lt_of_lt_of_le (List.sizeOf_lt_of_mem he) (by omega)
      valueInd P hnull hbool hint hfloat hstr harr hobj e)
  | .obj ps => hobj ps (fun p hp =>
      have h1 : sizeOf p < sizeOf ps := List.sizeOf_lt_of_mem hp
      have h2 : sizeOf p.2 < sizeOf p := by
        obtain ⟨a, b⟩ := p
        simp only [Prod.mk.sizeOf_spec]
        omega
      valueInd P hnull hbool hint hfloat hstr harr hobj p.2)
termination_by v => sizeOf v
decreasing_by
  · simpa using this
  · simp only [Value.obj.sizeOf_spec]
    omega

/-! Lemmas about the lexicographic byte order. -/

theorem lexLt_irrefl (a : List Nat) : lexLt a a = false := by
  induction a with
  | nil => rfl
  | cons x xs ih => simp [lexLt, ih]

theorem lexLt_trans {a b c : List Nat} (h1 : lexLt a b = true) (h2 : lexLt b c = true) :
    lexLt a c = true := by
  induction a generalizing b c with
  | nil =>
    cases b with
    | nil => simp [lexLt] at h1
    | cons y ys =>
      cases c with
      | nil => simp [lexLt] at h2
      | cons z zs => rfl
  | cons x xs ih =>
    cases b with
    | nil => simp [lexLt] at h1
    | cons y ys =>
      cases c with
      | nil => simp [lexLt] at h2
      | cons z zs =>
        simp only [lexLt, Bool.or_eq_true, decide_eq_true_eq, Bool.and_eq_true,
          beq_iff_eq] at h1 h2 ⊢
        rcases h1 with h1 | ⟨rfl, h1⟩
        · rcases h2 with h2 | ⟨rfl, h2⟩
          · exact Or.inl (Nat.lt_trans h1 h2)
          · exact Or.inl h1
        · rcases h2 with h2 | ⟨rfl, h2⟩
          · exact Or.inl h2
          · exact Or.inr ⟨rfl, ih h1 h2⟩

theorem lexLt_asymm {a b : List Nat} (h1 : lexLt a b = true) (h2 : lexLt b a = true) : False := by
  have := lexLt_trans h1 h2
  rw [lexLt_irrefl] at this
  exact Bool.false_ne_true this

theorem lexLt_connex (a b : List Nat) : lexLt a b = true ∨ a = b ∨ lexLt b a = true := by
  induction a generalizing b with
  | nil =>
    cases b with
    | nil => exact Or.inr (Or.inl rfl)
    | cons y ys => exact Or.inl rfl
  | cons x xs ih =>
    cases b with
    | nil => exact Or.inr (Or.inr rfl)
    | cons y ys =>
      rcases Nat.lt_trichotomy x y with h | h | h
      · left; simp [lexLt, h]
      · subst h
        rcases ih ys with h2 | h2 | h2
        · left; simp [lexLt, h2]
        · right; left; rw [h2]
        · right; right; simp [lexLt, h2]
      · right; right; simp [lexLt, h]

theorem lexLe_refl (a : List Nat) : lexLe a a = true := by simp [lexLe]

theorem lexLe_total (a b : List Nat) : lexLe a b = true ∨ lexLe b a = true := by
  rcases lexLt_connex a b with h | h | h
  · left; simp [lexLe, h]
  · left; simp [lexLe, h]
  · right; simp [lexLe, h]

theorem lexLe_iff {a b : List Nat} : lexLe a b = true ↔ lexLt a b = true ∨ a = b := by
  simp [lexLe]

theorem lexLe_trans {a b c : List Nat} (h1 : lexLe a b = true) (h2 : lexLe b c = true) :
    lexLe a c = true := by
  rcases lexLe_iff.1 h1 with h1 | rfl
  · rcases lexLe_iff.1 h2 with h2 | rfl
    · exact lexLe_iff.2 (Or.inl (lexLt_trans h1 h2))
    · exact lexLe_iff.2 (Or.inl h1)
  · exact h2

theorem lexLe_antisymm {a b : List Nat} (h1 : lexLe a b = true) (h2 : lexLe b a = true) :
    a = b := by
  rcases lexLe_iff.1 h1 with h1 | rfl
  · rcases lexLe_iff.1 h2 with h2 | rfl
    · exact absurd h2 (fun h => lexLt_asymm h1 h)
    · rfl
  · rfl

theorem lexLt_of_lexLe_of_ne {a b : List Nat} (h1 : lexLe a b = true) (h2 : a ≠ b) :
    lexLt a b = true := by
  rcases lexLe_iff.1 h1 with h | rfl
  · exact h
  · exact absurd rfl h2

/-! Lemmas about structural equality. -/

theorem beqL_iff (es : List Value) (ih : ∀ e ∈ es, ∀ b, beqV e b = true ↔ e = b) :
    ∀ fs, beqL es fs = true ↔ es = fs := by
  induction es with
  | nil => intro fs; cases fs <;> simp [beqL]
  | cons x xs ihx =>
    intro fs
    cases fs with
    | nil => simp [beqL]
    | cons y ys =>
      have hx := ih x (by simp)
      have hxs := ihx (fun e he b => ih e (by simp [he]) b) ys
      simp [beqL, hx, hxs]

theorem beqP_iff (ps : List (Key × Value)) (ih : ∀ p ∈ ps, ∀ b, beqV p.2 b = true ↔ p.2 = b) :
    ∀ qs, beqP ps qs = true ↔ ps = qs := by
  induction ps with
  | nil => intro qs; cases qs <;> simp [beqP]
  | cons x xs ihx =>
    intro qs
    cases qs with
    | nil => obtain ⟨k, v⟩ := x; simp [beqP]
    | cons y ys =>
      obtain ⟨k, v⟩ := x
      obtain ⟨k2, v2⟩ := y
      have hv := ih (k, v) (by simp)
      have hxs := ihx (fun p hp b => ih p (by simp [hp]) b) ys
      simp [beqP, hv, hxs, and_assoc]

theorem beqV_iff (a : Value) : ∀ b, beqV a b = true ↔ a = b := by
  induction a using valueInd with
  | hnull => intro b; cases b <;> simp [beqV]
  | hbool x => intro b; cases b <;> simp [beqV]
  | hint x => intro b; cases b <;> simp [beqV]
  | hfloat x => intro b; cases b <;> simp [beqV]
  | hstr x => intro b; cases b <;> simp [beqV]
  | harr es ih =>
    intro b
    cases b with
    | arr fs => simpa [beqV] using beqL_iff es ih fs
    | null => simp [beqV]
    | bool _ => simp [beqV]
    | int _ => simp [beqV]
    | float _ => simp [beqV]
    | str _ => simp [beqV]
    | obj _ => simp [beqV]
  | hobj ps ih =>
    intro b
    cases b with
    | obj qs => simpa [beqV] using beqP_iff ps ih qs
    | null => simp [beqV]
    | bool _ => simp [beqV]
    | int _ => simp [beqV]
    | float _ => simp [beqV]
    | str _ => simp [beqV]
    | arr _ => simp [beqV]

theorem beqV_refl (a : Value) : beqV a a = true := (beqV_iff a a).2 rfl

theorem structEq_iff {v w : Value} : structEq v w = true ↔ canon v = canon w := by
  unfold structEq
  exact beqV_iff (canon v) (canon w)

/-! Lemmas about the canonical form. -/

theorem canonL_eq_map (es : List Value) : canonL es = es.map canon := by
  induction es with
  | nil => rfl
  | cons x xs ih => simp [canonL, ih]

theorem canonP_eq_map (ps : List (Key × Value)) :
    canonP ps = ps.map (fun p => (p.1, canon p.2)) := by
  induction ps with
  | nil => rfl
  | cons x xs ih => obtain ⟨k, v⟩ := x; simp [canonP, ih]

theorem sortPairs_perm (ps : List (Key × Value)) : List.Perm (sortPairs ps) ps :=
  List.perm_insertionSort pairLe ps

theorem sortPairs_sorted (ps : List (Key × Value)) : List.Sorted pairLe (sortPairs ps) := by
  haveI htot : IsTotal (Key × Value) pairLe := ⟨fun a b => lexLe_total a.1 b.1⟩
  haveI htrans : IsTrans (Key × Value) pairLe := ⟨fun a b c h1 h2 => lexLe_trans h1 h2⟩
  exact List.sorted_insertionSort pairLe ps

theorem sortPairs_of_sorted {ps : List (Key × Value)} (h : List.Sorted pairLe ps) :
    sortPairs ps = ps :=
  List.Sorted.insertionSort_eq h

theorem canonNaNBits_idem (b : Nat) : canonNaNBits (canonNaNBits b) = canonNaNBits b := by
  unfold canonNaNBits
  by_cases h : isNaNBits b = true
  · rw [if_pos h, if_pos (by decide)]
  · rw [if_neg (by simp [h]), if_neg (by simp [h])]

theorem canonP_id_of_mem {ps : List (Key × Value)} (h : ∀ p ∈ ps, canon p.2 = p.2) :
    canonP ps = ps := by
  induction ps with
  | nil => rfl
  | cons x xs ih =>
    obtain ⟨k, v⟩ := x
    have h1 := h (k, v) (by simp)
    simp only at h1
    simp [canonP, h1, ih (fun p hp => h p (by simp [hp]))]

theorem canon_idem (v : Value) : canon (canon v) = canon v := by
  induction v using valueInd with
  | hnull => rfl
  | hbool b => rfl
  | hint i => rfl
  | hfloat b => simp [canon, canonNaNBits_idem]
  | hstr s => rfl
  | harr es ih =>
    simp only [canon, canonL_eq_map, List.map_map, Value.arr.injEq]
    exact List.map_congr_left (fun e he => canon_idem_aux e (ih e he))
  | hobj ps ih =>
    simp only [canon, Value.obj.injEq]
    have hmem : ∀ p ∈ sortPairs (canonP ps), canon p.2 = p.2 := by
      intro p hp
      have hp2 : p ∈ canonP ps := (sortPairs_perm (canonP ps)).mem_iff.1 hp
      rw [canonP_eq_map] at hp2
      obtain ⟨q, hq, rfl⟩ := List.mem_map.1 hp2
      exact ih q hq
    rw [canonP_id_of_mem hmem, sortPairs_of_sorted (sortPairs_sorted (canonP ps))]
where
  canon_idem_aux (e : Value) (h : canon (canon e) = canon e) :
      (fun a => canon (canon a)) e = canon e := h

theorem structEq_refl (v : Value) : structEq v v = true := beqV_refl (canon v)

theorem structEq_canon_left (v : Value) : structEq (canon v) v = true := by
  rw [structEq_iff]
  exact canon_idem v

/-! Lemmas about depth. -/

theorem depthL_mem_le {e : Value} {es : List Value} (h : e ∈ es) : depthOf e ≤ depthL es := by
  induction es with
  | nil => cases h
  | cons x xs ih =>
    rcases List.mem_cons.1 h with rfl | h
    · simp [depthL]
    · simp only [depthL]
      exact le_max_of_le_right (ih h)

theorem depthP_mem_le {p : Key × Value} {ps : List (Key × Value)} (h : p ∈ ps) :
    depthOf p.2 ≤ depthP ps := by
  induction ps with
  | nil => cases h
  | cons x xs ih =>
    obtain ⟨k, v⟩ := x
    rcases List.mem_cons.1 h with rfl | h
    · simp [depthP]
    · simp only [depthP]
      exact le_max_of_le_right (ih h)

theorem depthP_eq_foldr (ps : List (Key × Value)) :
    depthP ps = (ps.map (fun p => depthOf p.2)).foldr max 0 := by
  induction ps with
  | nil => rfl
  | cons x xs ih => obtain ⟨k, v⟩ := x; simp [depthP, ih]

theorem foldr_max_perm {l1 l2 : List Nat} (h : List.Perm l1 l2) (a : Nat) :
    l1.foldr max a = l2.foldr max a := by
  induction h with
  | nil => rfl
  | cons x _ ih => simp [ih]
  | swap x y l => simp [Nat.max_left_comm]
  | trans _ _ ih1 ih2 => rw [ih1, ih2]

theorem depthP_perm {ps qs : List (Key × Value)} (h : List.Perm ps qs) :
    depthP ps = depthP qs := by
  rw [depthP_eq_foldr, depthP_eq_foldr]
  exact foldr_max_perm (h.map _) 0

theorem depth_canon (v : Value) : depthOf (canon v) = depthOf v := by
  induction v using valueInd with
  | hnull => rfl
  | hbool b => rfl
  | hint i => rfl
  | hfloat b => rfl
  | hstr s => rfl
  | harr es ih =>
    simp only [canon, depthOf]
    congr 1
    induction es with
    | nil => rfl
    | cons x xs ihx =>
      simp only [canonL, depthL]
      rw [ih x (by simp), ihx (fun e he => ih e (by simp [he]))]
  | hobj ps ih =>
    simp only [canon, depthOf]
    congr 1
    rw [depthP_perm (sortPairs_perm (canonP ps))]
    induction ps with
    | nil => rfl
    | cons x xs ihx =>
      obtain ⟨k, v⟩ := x
      simp only [canonP, depthP]
      rw [ih (k, v) (by simp), ihx (fun p hp => ih p (by simp [hp]))]

/-! Lemmas about key collection and the dictionary. -/

theorem mem_collKeysL {k : Key} {es : List Value} :
    k ∈ collKeysL es ↔ ∃ e ∈ es, k ∈ collKeys e := by
  induction es with
  | nil => simp [collKeysL]
  | cons x xs ih => simp [collKeysL, ih]

theorem mem_collKeysP {k : Key} {ps : List (Key × Value)} :
    k ∈ collKeysP ps ↔ (∃ p ∈ ps, k = p.1) ∨ ∃ p ∈ ps, k ∈ collKeys p.2 := by
  induction ps with
  | nil => simp [collKeysP]
  | cons x xs ih =>
    obtain ⟨k1, v1⟩ := x
    simp only [collKeysP, List.mem_cons, List.mem_append, ih]
    constructor
    · rintro (rfl | h | ⟨p, hp, hk⟩ | ⟨p, hp, hk⟩)
      · exact Or.inl ⟨(k, v1), Or.inl rfl, rfl⟩
      · exact Or.inr ⟨(k1, v1), Or.inl rfl, h⟩
      · exact Or.inl ⟨p, Or.inr hp, hk⟩
      · exact Or.inr ⟨p, Or.inr hp, hk⟩
    · rintro (⟨p, hp | hp, hk⟩ | ⟨p, hp | hp, hk⟩)
      · subst hp; exact Or.inl hk
      · exact Or.inr (Or.inr (Or.inl ⟨p, hp, hk⟩))
      · subst hp; exact Or.inr (Or.inl hk)
      · exact Or.inr (Or.inr (Or.inr ⟨p, hp, hk⟩))

theorem dictOf_perm_dedup (v : Value) : List.Perm (dictOf v) ((collKeys v).dedup) :=
  List.perm_insertionSort keyLe ((collKeys v).dedup)

theorem mem_dictOf {k : Key} {v : Value} : k ∈ dictOf v ↔ k ∈ collKeys v := by
  rw [(dictOf_perm_dedup v).mem_iff]
  exact List.mem_dedup

theorem dictOf_nodup (v : Value) : (dictOf v).Nodup :=
  (dictOf_perm_dedup v).nodup_iff.2 (collKeys v).nodup_dedup

theorem dictOf_sorted (v : Value) : List.Sorted keyLe (dictOf v) := by
  haveI htot : IsTotal Key keyLe := ⟨fun a b => lexLe_total a b⟩
  haveI htrans : IsTrans Key keyLe := ⟨fun a b c h1 h2 => lexLe_trans h1 h2⟩
  exact List.sorted_insertionSort keyLe ((collKeys v).dedup)

theorem pairwise_lexLt_of_sorted_nodup {l : List Key} (hs : List.Sorted keyLe l)
    (hn : l.Nodup) : List.Pairwise (fun a b => lexLt a b = true) l := by
  have h := List.Pairwise.and hs hn
  exact h.imp (fun hab => lexLt_of_lexLe_of_ne hab.1 hab.2)

theorem dictOf_strict (v : Value) :
    List.Pairwise (fun a b => lexLt a b = true) (dictOf v) :=
  pairwise_lexLt_of_sorted_nodup (dictOf_sorted v) (dictOf_nodup v)

theorem keyIdx_lt_length {d : List Key} {a : Key} (h : a ∈ d) : keyIdx d a < d.length := by
  induction d with
  | nil => cases h
  | cons x xs ih =>
    by_cases hx : x = a
    · simp [keyIdx, hx]
    · rcases List.mem_cons.1 h with rfl | h2
      · exact absurd rfl hx
      · simp only [keyIdx, if_neg hx, List.length_cons]
        exact Nat.succ_lt_succ (ih h2)

theorem keyIdx_get {d : List Key} {a : Key} (h : a ∈ d) (hlt : keyIdx d a < d.length) :
    d.get ⟨keyIdx d a, hlt⟩ = a := by
  induction d with
  | nil => cases h
  | cons x xs ih =>
    by_cases hx : x = a
    · simp [keyIdx, hx]
    · rcases List.mem_cons.1 h with rfl | h2
      · exact absurd rfl hx
      · have hlt2 : keyIdx xs a < xs.length := keyIdx_lt_length h2
        simp only [keyIdx, if_neg hx, List.get_cons_succ]
        exact ih h2 hlt2

theorem keyIdx_lt_of_strict {d : List Key}
    (hp : List.Pairwise (fun a b => lexLt a b = true) d) {a b : Key}
    (ha : a ∈ d) (hb : b ∈ d) (hab : lexLt a b = true) :
    keyIdx d a < keyIdx d b := by
  induction d with
  | nil => cases ha
  | cons x xs ih =>
    have hx := List.pairwise_cons.1 hp
    by_cases hxa : x = a
    · subst hxa
      by_cases hxb : x = b
      · subst hxb
        simp [lexLt_irrefl] at hab
      · rcases List.mem_cons.1 hb with rfl | hb2
        · exact absurd rfl hxb
        · simp [keyIdx, hxb]
    · by_cases hxb : x = b
      · subst hxb
        rcases List.mem_cons.1 ha with rfl | ha2
        · exact absurd rfl hxa
        · exact absurd (hx.1 a ha2) (fun h => lexLt_asymm h hab)
      · rcases List.mem_cons.1 ha with rfl | ha2
        · exact absurd rfl hxa
        · rcases List.mem_cons.1 hb with rfl | hb2
          · exact absurd rfl hxb
          · simp only [keyIdx, if_neg hxa, if_neg hxb]
            exact Nat.succ_lt_succ (ih hx.2 ha2 hb2)

/-! Round-trip lemmas for the primitive readers. -/

theorem exceptBindOk {ε α β : Type} (a : α) (f : α → Except ε β) :
    (Except.ok (ε := ε) a >>= f) = f a := rfl

theorem beVal_u32 {n : Nat} (h : n < 2 ^ 32) : beVal (u32be n) = n := by
  simp only [beVal, u32be, List.foldl]
  omega

theorem beVal_u64 {n : Nat} (h : n < 2 ^ 64) : beVal (u64be n) = n := by
  simp only [beVal, u64be, List.foldl]
  omega

theorem readBytesAt_exact (xs rest : List Nat) (pos : Nat) :
    readBytesAt xs.length (xs ++ rest) pos = .ok (xs, rest, pos + xs.length) := by
  unfold readBytesAt
  rw [if_pos (by simp), List.take_left, List.drop_left]

theorem readU32At_emit {n : Nat} (h : n < 2 ^ 32) (rest : List Nat) (pos : Nat) :
    readU32At (u32be n ++ rest) pos = .ok (n, rest, pos + 4) := by
  unfold readU32At
  have h4 : (4 : Nat) = (u32be n).length := rfl
  rw [h4, readBytesAt_exact, exceptBindOk]
  simp [beVal_u32 h]

theorem readU64At_emit {n : Nat} (h : n < 2 ^ 64) (rest : List Nat) (pos : Nat) :
    readU64At (u64be n ++ rest) pos = .ok (n, rest, pos + 8) := by
  unfold readU64At
  have h8 : (8 : Nat) = (u64be n).length := rfl
  rw [h8, readBytesAt_exact, exceptBindOk]
  simp [beVal_u64 h]

theorem intInRange_iff {i : Int} :
    intInRange i = true ↔ -((2 ^ 63 : Nat) : Int) ≤ i ∧ i < ((2 ^ 63 : Nat) : Int) := by
  simp [intInRange]

theorem emod_u64_toNat_lt (i : Int) : (i.emod ((2 : Int) ^ 64)).toNat < 2 ^ 64 := by
  have h64 : i.emod ((2 : Int) ^ 64) = i % 18446744073709551616 := by
    have : i.emod ((2 : Int) ^ 64) = i % ((2 : Int) ^ 64) := rfl
    rw [this]
    norm_num
  rw [h64]
  omega

theorem intOfU64_emod {i : Int} (h1 : -((2 ^ 63 : Nat) : Int) ≤ i)
    (h2 : i < ((2 ^ 63 : Nat) : Int)) :
    intOfU64 ((i.emod ((2 : Int) ^ 64)).toNat) = i := by
  have h64 : i.emod ((2 : Int) ^ 64) = i % 18446744073709551616 := by
    have : i.emod ((2 : Int) ^ 64) = i % ((2 : Int) ^ 64) := rfl
    rw [this]
    norm_num
  unfold intOfU64
  rw [h64]
  split
  · omega
  · omega

/-! Core round-trip lemma: the decoder reproduces exactly what the encoder
emitted, for canonical-form values. -/

theorem depthOf_pos (v : Value) : 1 ≤ depthOf v := by
  cases v <;> simp [depthOf]

theorem canonGoodL_mem {dict : List Key} {es : List Value} (h : canonGoodL dict es = true)
    {e : Value} (he : e ∈ es) : canonGoodV dict e = true := by
  induction es with
  | nil => cases he
  | cons x xs ih =>
    simp only [canonGoodL, Bool.and_eq_true] at h
    rcases List.mem_cons.1 he with rfl | he2
    · exact h.1
    · exact ih h.2 he2

theorem canonGoodP_mem {dict : List Key} {ps : List (Key × Value)} (h : canonGoodP dict ps = true)
    {p : Key × Value} (hp : p ∈ ps) : canonGoodV dict p.2 = true := by
  induction ps with
  | nil => cases hp
  | cons x xs ih =>
    obtain ⟨k, v⟩ := x
    simp only [canonGoodP, Bool.and_eq_true] at h
    rcases List.mem_cons.1 hp with rfl | hp2
    · exact h.1
    · exact ih h.2 hp2

theorem utf8FirstBad_none_of_valid {s : List Nat} (h : validUtf8 s = true) :
    utf8FirstBad s 0 = none := by
  simpa [validUtf8, Option.isNone_iff_eq_none] using h

theorem parseElems_emit {dict : List Key} {fuel : Nat} (es : List Value)
    (ih : ∀ e ∈ es, ∀ rest pos,
      parseValue dict fuel (emit dict e ++ rest) pos = .ok (e, rest, pos + (emit dict e).length)) :
    ∀ rest pos,
      parseElems (fun r p => parseValue dict fuel r p) es.length (emitL dict es ++ rest) pos =
        .ok (es, rest, pos + (emitL dict es).length) := by
  induction es with
  | nil =>
    intro rest pos
    simp [parseElems, emitL]
  | cons x xs ihx =>
    intro rest pos
    simp only [List.length_cons, emitL, List.append_assoc]
    simp only [parseElems]
    rw [ih x (by simp) (emitL dict xs ++ rest) pos, exceptBindOk,
      ihx (fun e he => ih e (by simp [he])) rest (pos + (emit dict x).length), exceptBindOk]
    simp only [List.length_append, Nat.add_assoc]

theorem parsePairs_emit {dict : List Key} {fuel : Nat}
    (hstrict : List.Pairwise (fun a b => lexLt a b = true) dict)
    (hdlen : dict.length < 2 ^ 32) :
    ∀ ps : List (Key × Value),
    (∀ p ∈ ps, ∀ rest pos,
      parseValue dict fuel (emit dict p.2 ++ rest) pos = .ok (p.2, rest, pos + (emit dict p.2).length)) →
    (∀ p ∈ ps, p.1 ∈ dict) →
    keysStrictInc (ps.map Prod.fst) = true →
    ∀ prev : Option Nat,
    (∀ pidx k2 v2 qs, prev = some pidx → ps = (k2, v2) :: qs → pidx < keyIdx dict k2) →
    ∀ rest pos,
      parsePairs (fun r p => parseValue dict fuel r p) dict ps.length prev (emitP dict ps ++ rest) pos =
        .ok (ps, rest, pos + (emitP dict ps).length) := by
  intro ps
  induction ps with
  | nil =>
    intro _ _ _ prev _ rest pos
    simp [parsePairs, emitP]
  | cons x ps2 ihps =>
    obtain ⟨k, v⟩ := x
    intro ih hmem hinc prev hprev rest pos
    have hkmem : k ∈ dict := hmem (k, v) (by simp)
    have hidx : keyIdx dict k < dict.length := keyIdx_lt_length hkmem
    simp only [List.length_cons, emitP, List.append_assoc]
    simp only [parsePairs]
    rw [readU32At_emit (Nat.lt_trans hidx hdlen) _ pos, exceptBindOk]
    rw [dif_pos hidx]
    have hasc : ascOk prev (keyIdx dict k) = true := by
      cases prev with
      | none => rfl
      | some pidx => simp [ascOk, hprev pidx k v ps2 rfl rfl]
    rw [if_pos hasc]
    rw [ih (k, v) (by simp) _ (pos + 4), exceptBindOk]
    have hprev2 : ∀ pidx k2 v2 qs, (some (keyIdx dict k) : Option Nat) = some pidx →
        ps2 = (k2, v2) :: qs → pidx < keyIdx dict k2 := by
      intro pidx k2 v2 qs h1 h2
      cases h1
      subst h2
      have hlt : lexLt k k2 = true := by
        simp only [List.map_cons, keysStrictInc, Bool.and_eq_true] at hinc
        exact hinc.1
      exact keyIdx_lt_of_strict hstrict hkmem (hmem (k2, v2) (by simp)) hlt
    have hinc2 : keysStrictInc (ps2.map Prod.fst) = true := by
      cases ps2 with
      | nil => rfl
      | cons q qs =>
        simp only [List.map_cons, keysStrictInc, Bool.and_eq_true] at hinc
        simpa [keysStrictInc] using hinc.2
    rw [ihps (fun p hp => ih p (by simp [hp])) (fun p hp => hmem p (by simp [hp])) hinc2
      (some (keyIdx dict k)) hprev2 rest (pos + 4 + (emit dict v).length), exceptBindOk]
    rw [keyIdx_get hkmem hidx]
    simp only [List.length_append, u32be, List.length_cons, List.length_nil]
    norm_num
    omega

theorem parseValue_emit {dict : List Key}
    (hstrict : List.Pairwise (fun a b => lexLt a b = true) dict)
    (hdlen : dict.length < 2 ^ 32) :
    ∀ v : Value, canonGoodV dict v = true →
    ∀ fuel, depthOf v ≤ fuel + 1 →
    ∀ rest pos,
      parseValue dict (fuel + 1) (emit dict v ++ rest) pos =
        .ok (v, rest, pos + (emit dict v).length) := by
  intro v
  induction v using valueInd with
  | hnull =>
    intro _ fuel _ rest pos
    simp [parseValue, emit, readByteAt, exceptBindOk]
  | hbool b =>
    intro _ fuel _ rest pos
    cases b <;> simp [parseValue, emit, readByteAt, exceptBindOk]
  | hint i =>
    intro hg fuel _ rest pos
    simp only [canonGoodV] at hg
    have hr := intInRange_iff.1 hg
    simp only [emit, List.cons_append]
    simp only [parseValue, readByteAt, exceptBindOk]
    rw [if_neg (by decide), if_neg (by decide), if_neg (by decide), if_pos (by trivial)]
    rw [readU64At_emit (emod_u64_toNat_lt i) rest (pos + 1), exceptBindOk,
      intOfU64_emod hr.1 hr.2]
    simp only [List.length_cons, u64be, List.length_nil]
  | hfloat b =>
    intro hg fuel _ rest pos
    simp only [canonGoodV, Bool.and_eq_true, decide_eq_true_eq] at hg
    simp only [emit, List.cons_append]
    simp only [parseValue, readByteAt, exceptBindOk]
    rw [if_neg (by decide), if_neg (by decide), if_neg (by decide), if_neg (by decide),
      if_pos (by trivial)]
    rw [readU64At_emit hg.1 rest (pos + 1), exceptBindOk]
    simp only [List.length_cons, u64be, List.length_nil]
  | hstr s =>
    intro hg fuel _ rest pos
    simp only [canonGoodV, Bool.and_eq_true, decide_eq_true_eq] at hg
    simp only [emit, List.cons_append, List.append_assoc]
    simp only [parseValue, readByteAt, exceptBindOk]
    rw [if_neg (by decide), if_neg (by decide), if_neg (by decide), if_neg (by decide),
      if_neg (by decide), if_pos (by trivial)]
    rw [readU32At_emit hg.1 (s ++ rest) (pos + 1), exceptBindOk,
      readBytesAt_exact s rest (pos + 1 + 4), exceptBindOk,
      utf8FirstBad_none_of_valid hg.2]
    simp only [List.length_cons, List.length_append, u32be, List.length_nil]
    norm_num
    omega
  | harr es ihm =>
    intro hg fuel hdep rest pos
    simp only [canonGoodV, Bool.and_eq_true, decide_eq_true_eq] at hg
    obtain ⟨hlen, hgl⟩ := hg
    have hel : ∀ e ∈ es, ∀ r p,
        parseValue dict fuel (emit dict e ++ r) p = .ok (e, r, p + (emit dict e).length) := by
      intro e he r p
      have hd1 : 1 ≤ depthOf e := depthOf_pos e
      have hd2 : depthOf e ≤ depthL es := depthL_mem_le he
      have hd3 : depthL es ≤ fuel := by
        simp only [depthOf] at hdep
        omega
      cases fuel with
      | zero => omega
      | succ f2 => exact ihm e he (canonGoodL_mem hgl he) f2 (by omega) r p
    simp only [emit, List.cons_append, List.append_assoc]
    simp only [parseValue, readByteAt, exceptBindOk]
    rw [if_neg (by decide), if_neg (by decide), if_neg (by decide), if_neg (by decide),
      if_neg (by decide), if_neg (by decide), if_pos (by trivial)]
    rw [readU32At_emit hlen (emitL dict es ++ rest) (pos + 1), exceptBindOk,
      parseElems_emit es hel rest (pos + 1 + 4), exceptBindOk]
    simp only [List.length_cons, List.length_append, u32be, List.length_nil]
    norm_num
    omega
  | hobj ps ihm =>
    intro hg fuel hdep rest pos
    simp only [canonGoodV, Bool.and_eq_true, decide_eq_true_eq] at hg
    obtain ⟨⟨⟨hlen, hinc⟩, hmemall⟩, hgp⟩ := hg
    have hmem : ∀ p ∈ ps, p.1 ∈ dict := by
      intro p hp
      have := List.all_eq_true.1 hmemall
      have h2 := this p.1 (List.mem_map.2 ⟨p, hp, rfl⟩)
      simpa using h2
    have hel : ∀ p ∈ ps, ∀ r pp,
        parseValue dict fuel (emit dict p.2 ++ r) pp = .ok (p.2, r, pp + (emit dict p.2).length) := by
      intro p hp r pp
      have hd1 : 1 ≤ depthOf p.2 := depthOf_pos p.2
      have hd2 : depthOf p.2 ≤ depthP ps := depthP_mem_le hp
      have hd3 : depthP ps ≤ fuel := by
        simp only [depthOf] at hdep
        omega
      cases fuel with
      | zero => omega
      | succ f2 => exact ihm p hp (canonGoodP_mem hgp hp) f2 (by omega) r pp
    simp only [emit, List.cons_append, List.append_assoc]
    simp only [parseValue, readByteAt, exceptBindOk]
    rw [if_neg (by decide), if_neg (by decide), if_neg (by decide), if_neg (by decide),
      if_neg (by decide), if_neg (by decide), if_neg (by decide), if_pos (by trivial)]
    rw [readU32At_emit hlen (emitP dict ps ++ rest) (pos + 1), exceptBindOk,
      parsePairs_emit hstrict hdlen ps hel hmem hinc none (by intro _ _ _ _ h _; cases h)
        rest (pos + 1 + 4), exceptBindOk]
    simp only [List.length_cons, List.length_append, u32be, List.length_nil]
    norm_num
    omega
/-! Extraction lemmas for the well-formedness checkers. -/

theorem keysNodupB_iff {ks : List Key} : keysNodupB ks = true ↔ ks.Nodup := by
  induction ks with
  | nil => simp [keysNodupB]
  | cons k ks2 ih => simp [keysNodupB, ih]

theorem utf8OkL_mem {es : List Value} (h : utf8OkL es = true) {e : Value} (he : e ∈ es) :
    utf8OkV e = true := by
  induction es with
  | nil => cases he
  | cons x xs ih =>
    simp only [utf8OkL, Bool.and_eq_true] at h
    rcases List.mem_cons.1 he with rfl | he2
    · exact h.1
    · exact ih h.2 he2

theorem utf8OkP_mem {ps : List (Key × Value)} (h : utf8OkP ps = true) {p : Key × Value}
    (hp : p ∈ ps) : validUtf8 p.1 = true ∧ utf8OkV p.2 = true := by
  induction ps with
  | nil => cases hp
  | cons x xs ih =>
    obtain ⟨k, v⟩ := x
    simp only [utf8OkP, Bool.and_eq_true] at h
    rcases List.mem_cons.1 hp with rfl | hp2
    · exact ⟨h.1.1, h.1.2⟩
    · exact ih h.2 hp2

theorem noDupL_mem {es : List Value} (h : noDupL es = true) {e : Value} (he : e ∈ es) :
    noDupV e = true := by
  induction es with
  | nil => cases he
  | cons x xs ih =>
    simp only [noDupL, Bool.and_eq_true] at h
    rcases List.mem_cons.1 he with rfl | he2
    · exact h.1
    · exact ih h.2 he2

theorem noDupP_mem {ps : List (Key × Value)} (h : noDupP ps = true) {p : Key × Value}
    (hp : p ∈ ps) : noDupV p.2 = true := by
  induction ps with
  | nil => cases hp
  | cons x xs ih =>
    obtain ⟨k, v⟩ := x
    simp only [noDupP, Bool.and_eq_true] at h
    rcases List.mem_cons.1 hp with rfl | hp2
    · exact h.1
    · exact ih h.2 hp2

theorem sizesOkL_mem {es : List Value} (h : sizesOkL es = true) {e : Value} (he : e ∈ es) :
    sizesOkV e = true := by
  induction es with
  | nil => cases he
  | cons x xs ih =>
    simp only [sizesOkL, Bool.and_eq_true] at h
    rcases List.mem_cons.1 he with rfl | he2
    · exact h.1
    · exact ih h.2 he2

theorem sizesOkP_mem {ps : List (Key × Value)} (h : sizesOkP ps = true) {p : Key × Value}
    (hp : p ∈ ps) : sizesOkV p.2 = true := by
  induction ps with
  | nil => cases hp
  | cons x xs ih =>
    obtain ⟨k, v⟩ := x
    simp only [sizesOkP, Bool.and_eq_true] at h
    rcases List.mem_cons.1 hp with rfl | hp2
    · exact h.1
    · exact ih h.2 hp2

theorem collKeys_utf8 {v : Value} (hu : utf8OkV v = true) :
    ∀ k ∈ collKeys v, validUtf8 k = true := by
  induction v using valueInd with
  | hnull => intro k hk; cases hk
  | hbool b => intro k hk; cases hk
  | hint i => intro k hk; cases hk
  | hfloat b => intro k hk; cases hk
  | hstr s => intro k hk; cases hk
  | harr es ih =>
    intro k hk
    simp only [collKeys] at hk
    obtain ⟨e, he, hke⟩ := mem_collKeysL.1 hk
    exact ih e he (utf8OkL_mem hu he) k hke
  | hobj ps ih =>
    intro k hk
    simp only [collKeys] at hk
    rcases mem_collKeysP.1 hk with ⟨p, hp, rfl⟩ | ⟨p, hp, hke⟩
    · exact (utf8OkP_mem hu hp).1
    · exact ih p hp (utf8OkP_mem hu hp).2 k hke

theorem collKeys_len32 {v : Value} (hs : sizesOkV v = true) :
    ∀ k ∈ collKeys v, k.length < 2 ^ 32 := by
  induction v using valueInd with
  | hnull => intro k hk; cases hk
  | hbool b => intro k hk; cases hk
  | hint i => intro k hk; cases hk
  | hfloat b => intro k hk; cases hk
  | hstr s => intro k hk; cases hk
  | harr es ih =>
    intro k hk
    simp only [collKeys] at hk
    simp only [sizesOkV, Bool.and_eq_true] at hs
    obtain ⟨e, he, hke⟩ := mem_collKeysL.1 hk
    exact ih e he (sizesOkL_mem hs.2 he) k hke
  | hobj ps ih =>
    intro k hk
    simp only [collKeys] at hk
    simp only [sizesOkV, Bool.and_eq_true] at hs
    rcases mem_collKeysP.1 hk with ⟨p, hp, rfl⟩ | ⟨p, hp, hke⟩
    · have := List.all_eq_true.1 hs.1.2 p.1 (List.mem_map.2 ⟨p, hp, rfl⟩)
      simpa using this
    · exact ih p hp (sizesOkP_mem hs.2 hp) k hke

theorem canonGoodL_of_mem {dict : List Key} {es : List Value}
    (h : ∀ e ∈ es, canonGoodV dict e = true) : canonGoodL dict es = true := by
  induction es with
  | nil => rfl
  | cons x xs ih =>
    simp only [canonGoodL, Bool.and_eq_true]
    exact ⟨h x (by simp), ih (fun e he => h e (by simp [he]))⟩

theorem canonGoodP_of_mem {dict : List Key} {ps : List (Key × Value)}
    (h : ∀ p ∈ ps, canonGoodV dict p.2 = true) : canonGoodP dict ps = true := by
  induction ps with
  | nil => rfl
  | cons x xs ih =>
    obtain ⟨k, v⟩ := x
    simp only [canonGoodP, Bool.and_eq_true]
    exact ⟨h (k, v) (by simp), ih (fun p hp => h p (by simp [hp]))⟩

theorem keysStrictInc_of_sorted_nodup {l : List (Key × Value)}
    (hs : List.Sorted pairLe l) (hn : (l.map Prod.fst).Nodup) :
    keysStrictInc (l.map Prod.fst) = true := by
  induction l with
  | nil => rfl
  | cons a l2 ih =>
    cases l2 with
    | nil => rfl
    | cons b l3 =>
      have hab : pairLe a b := (List.sorted_cons.1 hs).1 b (by simp)
      have hne : a.1 ≠ b.1 := by
        simp only [List.map_cons, List.nodup_cons, List.mem_cons] at hn
        exact fun h => hn.1 (Or.inl h)
      have hlt : lexLt a.1 b.1 = true := lexLt_of_lexLe_of_ne hab hne
      have hn2 : ((b :: l3).map Prod.fst).Nodup := by
        simp only [List.map_cons, List.nodup_cons] at hn ⊢
        exact ⟨hn.2.1, hn.2.2⟩
      have ih2 := ih (List.sorted_cons.1 hs).2 hn2
      simp only [List.map_cons, keysStrictInc, Bool.and_eq_true]
      exact ⟨hlt, by simpa [keysStrictInc] using ih2⟩

/-! The canonical form of an encoder-accepted Value satisfies the decoder's
canonical-shape invariant. -/

theorem canonGood_canon {dict : List Key} (v : Value)
    (hu : utf8OkV v = true) (hn : noDupV v = true) (hs : sizesOkV v = true)
    (hk : ∀ k ∈ collKeys v, k ∈ dict) :
    canonGoodV dict (canon v) = true := by
  induction v using valueInd with
  | hnull => rfl
  | hbool b => rfl
  | hint i => simpa [canon, canonGoodV] using hs
  | hfloat b =>
    simp only [sizesOkV, decide_eq_true_eq] at hs
    simp only [canon, canonGoodV, Bool.and_eq_true, decide_eq_true_eq, beq_iff_eq]
    refine ⟨?_, canonNaNBits_idem b⟩
    unfold canonNaNBits
    split
    · decide
    · exact hs
  | hstr s =>
    simp only [sizesOkV, decide_eq_true_eq] at hs
    simp only [utf8OkV] at hu
    simp [canon, canonGoodV, hu]
    omega
  | harr es ih =>
    simp only [sizesOkV, Bool.and_eq_true, decide_eq_true_eq] at hs
    simp only [canon, canonGoodV, Bool.and_eq_true, decide_eq_true_eq]
    constructor
    · rw [canonL_eq_map, List.length_map]
      exact hs.1
    · rw [canonL_eq_map]
      refine canonGoodL_of_mem ?_
      intro e he
      obtain ⟨e0, he0, rfl⟩ := List.mem_map.1 he
      refine ih e0 he0 (utf8OkL_mem hu he0) (noDupL_mem hn he0) (sizesOkL_mem hs.2 he0) ?_
      intro k hk0
      refine hk k ?_
      simp only [collKeys]
      exact mem_collKeysL.2 ⟨e0, he0, hk0⟩
  | hobj ps ih =>
    simp only [sizesOkV, Bool.and_eq_true, decide_eq_true_eq] at hs
    simp only [noDupV, Bool.and_eq_true] at hn
    simp only [utf8OkV] at hu
    have hkeys : (sortPairs (canonP ps)).map Prod.fst = ((sortPairs (canonP ps)).map Prod.fst) := rfl
    have hkeyperm : List.Perm ((sortPairs (canonP ps)).map Prod.fst) (ps.map Prod.fst) := by
      have h1 : List.Perm (sortPairs (canonP ps)) (canonP ps) := sortPairs_perm _
      have h2 := h1.map Prod.fst
      have h3 : (canonP ps).map Prod.fst = ps.map Prod.fst := by
        rw [canonP_eq_map, List.map_map]
        rfl
      rwa [h3] at h2
    have hnodup : ((sortPairs (canonP ps)).map Prod.fst).Nodup :=
      hkeyperm.nodup_iff.2 (keysNodupB_iff.1 hn.1)
    simp only [canon, canonGoodV, Bool.and_eq_true, decide_eq_true_eq]
    refine ⟨⟨⟨?_, ?_⟩, ?_⟩, ?_⟩
    · rw [(sortPairs_perm (canonP ps)).length_eq, canonP_eq_map, List.length_map]
      exact hs.1.1
    · exact keysStrictInc_of_sorted_nodup (sortPairs_sorted (canonP ps)) hnodup
    · rw [List.all_eq_true]
      intro k hkmem
      have hk2 : k ∈ ps.map Prod.fst := hkeyperm.mem_iff.1 hkmem
      obtain ⟨p, hp, rfl⟩ := List.mem_map.1 hk2
      simp only [decide_eq_true_eq]
      refine hk p.1 ?_
      simp only [collKeys]
      exact mem_collKeysP.2 (Or.inl ⟨p, hp, rfl⟩)
    · refine canonGoodP_of_mem ?_
      intro p hp
      have hp2 : p ∈ canonP ps := (sortPairs_perm (canonP ps)).mem_iff.1 hp
      rw [canonP_eq_map] at hp2
      obtain ⟨q, hq, rfl⟩ := List.mem_map.1 hp2
      refine ih q hq ?_ (noDupP_mem hn.2 hq) (sizesOkP_mem hs.2 hq) ?_
      · exact (utf8OkP_mem hu hq).2
      · intro k hk0
        refine hk k ?_
        simp only [collKeys]
        exact mem_collKeysP.2 (Or.inr ⟨q, hq, hk0⟩)

/-! Round trip of the dictionary section. -/

theorem parseDict_emit {o : DecodeOptions} :
    ∀ (ks : List Key) (prev : Option Key),
    (∀ k ∈ ks, k.length ≤ o.maxStringLength ∧ k.length < 2 ^ 32 ∧ validUtf8 k = true) →
    List.Pairwise (fun a b => lexLt a b = true) ks →
    (∀ p k2 rest2, prev = some p → ks = k2 :: rest2 → lexLt p k2 = true) →
    ∀ rest pos,
      parseDict o ks.length prev ((ks.map dictEntryBytes).flatten ++ rest) pos =
        .ok (ks, rest, pos + ((ks.map dictEntryBytes).flatten).length) := by
  intro ks
  induction ks with
  | nil =>
    intro prev _ _ _ rest pos
    simp [parseDict]
  | cons k ks2 ih =>
    intro prev hbounds hpw hprev rest pos
    have hb := hbounds k (by simp)
    simp only [List.map_cons, List.flatten_cons, List.length_cons, dictEntryBytes,
      List.append_assoc]
    simp only [parseDict]
    rw [readU32At_emit hb.2.1 _ pos, exceptBindOk]
    rw [if_neg (Nat.not_lt.2 hb.1)]
    rw [readBytesAt_exact k _ (pos + 4), exceptBindOk]
    rw [utf8FirstBad_none_of_valid hb.2.2]
    have hasc : dictAscOk prev k = true := by
      cases prev with
      | none => rfl
      | some p => exact hprev p k ks2 rfl rfl
    rw [if_pos hasc]
    have hpw2 := List.pairwise_cons.1 hpw
    rw [ih (some k) (fun k2 hk2 => hbounds k2 (by simp [hk2])) hpw2.2
      (by intro p k2 rest2 h1 h2; cases h1; subst h2; exact hpw2.1 k2 (by simp)) rest
      (pos + 4 + k.length), exceptBindOk]
    simp only [List.length_append, List.length_cons, u32be, List.length_nil]
    norm_num
    omega

/-! Full binary round trip. -/

theorem readBytesAt_len {n : Nat} (xs rest : List Nat) (pos : Nat) (h : xs.length = n) :
    readBytesAt n (xs ++ rest) pos = .ok (xs, rest, pos + n) := by
  subst h
  exact readBytesAt_exact xs rest pos

theorem encodeBytes_eq (v : Value) :
    encodeBytes v =
      magicBytes ++ (1 :: (u32be (dictOf v).length ++
        (((dictOf v).map dictEntryBytes).flatten ++ emit (dictOf v) (canon v)))) := by
  simp [encodeBytes, dictBytes, List.append_assoc]

theorem decodeBinary_encodeBytes {v : Value} {o : DecodeOptions}
    (hu : utf8OkV v = true) (hn : noDupV v = true) (hs : sizesOkV v = true)
    (hd32 : (dictOf v).length < 2 ^ 32) (hc : decodeCompat v o = true) :
    decodeBinary (encodeBytes v) o = .ok (canon v) := by
  simp only [decodeCompat, Bool.and_eq_true, decide_eq_true_eq] at hc
  obtain ⟨⟨hdep, hdlen⟩, hslen⟩ := hc
  rw [encodeBytes_eq]
  unfold decodeBinary
  rw [readBytesAt_len (n := 4) magicBytes _ 0 rfl, exceptBindOk]
  dsimp only
  rw [if_neg (by simp)]
  simp only [readByteAt, exceptBindOk]
  rw [if_neg (by simp)]
  rw [readU32At_emit hd32 _ 5, exceptBindOk]
  try dsimp only
  rw [if_neg (Nat.not_lt.2 hdlen)]
  have hbounds : ∀ k ∈ dictOf v,
      k.length ≤ o.maxStringLength ∧ k.length < 2 ^ 32 ∧ validUtf8 k = true := by
    intro k hkd
    refine ⟨?_, collKeys_len32 hs k (mem_dictOf.1 hkd), collKeys_utf8 hu k (mem_dictOf.1 hkd)⟩
    have := List.all_eq_true.1 hslen k hkd
    simpa using this
  rw [parseDict_emit (dictOf v) none hbounds (dictOf_strict v)
    (by intro p k2 rest2 h1 _; cases h1) _ 9, exceptBindOk]
  try dsimp only
  have hd1 : 1 ≤ depthOf v := depthOf_pos v
  obtain ⟨f, hf⟩ : ∃ f, o.maxDepth = f + 1 := ⟨o.maxDepth - 1, by omega⟩
  rw [hf]
  have hcg : canonGoodV (dictOf v) (canon v) = true :=
    canonGood_canon v hu hn hs (fun k hk => mem_dictOf.2 hk)
  have hdc : depthOf (canon v) ≤ f + 1 := by
    rw [depth_canon]
    omega
  rw [show emit (dictOf v) (canon v) =
      emit (dictOf v) (canon v) ++ [] from (List.append_nil _).symm]
  rw [parseValue_emit (dictOf_strict v) hd32 (canon v) hcg f hdc []
    (9 + ((dictOf v).map dictEntryBytes).flatten.length), exceptBindOk]
  try dsimp only
  rw [if_pos rfl]

/-! Canonical determinism machinery. -/

theorem encode_ok_of_encOk {v : Value} {o : EncodeOptions} (h : encOk v o = true) :
    encode v o = .ok (encodeBytes v) := by
  simp only [encOk, Bool.and_eq_true, decide_eq_true_eq] at h
  obtain ⟨⟨⟨⟨hdep, hu⟩, hn⟩, hs⟩, h32⟩ := h
  unfold encode
  rw [if_neg (by omega), if_neg (by simp [hu]), if_neg (by simp [hn]),
    if_neg (by simp [hs]; omega)]

theorem mem_collKeys_canon {k : Key} (v : Value) :
    k ∈ collKeys (canon v) ↔ k ∈ collKeys v := by
  induction v using valueInd with
  | hnull => simp [canon, collKeys]
  | hbool b => simp [canon, collKeys]
  | hint i => simp [canon, collKeys]
  | hfloat b => simp [canon, collKeys]
  | hstr s => simp [canon, collKeys]
  | harr es ih =>
    simp only [canon, collKeys, mem_collKeysL, canonL_eq_map]
    constructor
    · rintro ⟨e, he, hke⟩
      obtain ⟨e0, he0, rfl⟩ := List.mem_map.1 he
      exact ⟨e0, he0, (ih e0 he0).1 hke⟩
    · rintro ⟨e0, he0, hke⟩
      exact ⟨canon e0, List.mem_map.2 ⟨e0, he0, rfl⟩, (ih e0 he0).2 hke⟩
  | hobj ps ih =>
    simp only [canon, collKeys, mem_collKeysP]
    have hperm := sortPairs_perm (canonP ps)
    constructor
    · rintro (⟨p, hp, rfl⟩ | ⟨p, hp, hke⟩)
      · have hp2 : p ∈ canonP ps := hperm.mem_iff.1 hp
        rw [canonP_eq_map] at hp2
        obtain ⟨q, hq, rfl⟩ := List.mem_map.1 hp2
        exact Or.inl ⟨q, hq, rfl⟩
      · have hp2 : p ∈ canonP ps := hperm.mem_iff.1 hp
        rw [canonP_eq_map] at hp2
        obtain ⟨q, hq, rfl⟩ := List.mem_map.1 hp2
        exact Or.inr ⟨q, hq, (ih q hq).1 hke⟩
    · rintro (⟨q, hq, rfl⟩ | ⟨q, hq, hke⟩)
      · refine Or.inl ⟨(q.1, canon q.2), ?_, rfl⟩
        refine hperm.mem_iff.2 ?_
        rw [canonP_eq_map]
        exact List.mem_map.2 ⟨q, hq, rfl⟩
      · refine Or.inr ⟨(q.1, canon q.2), ?_, (ih q hq).2 hke⟩
        refine hperm.mem_iff.2 ?_
        rw [canonP_eq_map]
        exact List.mem_map.2 ⟨q, hq, rfl⟩

theorem not_mem_of_pairwise_lexLt {x : Key} {l : List Key}
    (h : ∀ k ∈ l, lexLt x k = true) : x ∉ l := by
  intro hx
  have := h x hx
  rw [lexLt_irrefl] at this
  exact Bool.false_ne_true this

theorem eq_of_strict_sorted_mem_iff :
    ∀ {l1 l2 : List Key},
    List.Pairwise (fun a b => lexLt a b = true) l1 →
    List.Pairwise (fun a b => lexLt a b = true) l2 →
    (∀ k, k ∈ l1 ↔ k ∈ l2) → l1 = l2 := by
  intro l1
  induction l1 with
  | nil =>
    intro l2 _ _ hmem
    cases l2 with
    | nil => rfl
    | cons y l2b => exact absurd ((hmem y).2 (by simp)) (by simp)
  | cons x l1b ih =>
    intro l2 h1 h2 hmem
    cases l2 with
    | nil => exact absurd ((hmem x).1 (by simp)) (by simp)
    | cons y l2b =>
      have hp1 := List.pairwise_cons.1 h1
      have hp2 := List.pairwise_cons.1 h2
      have hxy : x = y := by
        have hx2 : x ∈ y :: l2b := (hmem x).1 (by simp)
        have hy1 : y ∈ x :: l1b := (hmem y).2 (by simp)
        rcases List.mem_cons.1 hx2 with h | hx2b
        · exact h
        · rcases List.mem_cons.1 hy1 with h | hy1b
          · exact h.symm
          · exact absurd (hp1.1 y hy1b) (fun hl => lexLt_asymm hl (hp2.1 x hx2b))
      subst hxy
      have hmem2 : ∀ k, k ∈ l1b ↔ k ∈ l2b := by
        intro k
        constructor
        · intro hk
          have hk2 : k ∈ x :: l2b := (hmem k).1 (by simp [hk])
          rcases List.mem_cons.1 hk2 with rfl | hk2b
          · exact absurd hk (not_mem_of_pairwise_lexLt hp1.1)
          · exact hk2b
        · intro hk
          have hk1 : k ∈ x :: l1b := (hmem k).2 (by simp [hk])
          rcases List.mem_cons.1 hk1 with rfl | hk1b
          · exact absurd hk (not_mem_of_pairwise_lexLt hp2.1)
          · exact hk1b
      rw [ih hp1.2 hp2.2 hmem2]

theorem dictOf_eq_of_canon_eq {v w : Value} (h : canon v = canon w) : dictOf v = dictOf w := by
  refine eq_of_strict_sorted_mem_iff (dictOf_strict v) (dictOf_strict w) ?_
  intro k
  rw [mem_dictOf, mem_dictOf, ← mem_collKeys_canon v, h, mem_collKeys_canon w]

theorem encodeBytes_eq_of_canon_eq {v w : Value} (h : canon v = canon w) :
    encodeBytes v = encodeBytes w := by
  unfold encodeBytes
  rw [dictOf_eq_of_canon_eq h, h]

/-! Error-offset bounds: every decode error points into the input. -/

theorem exceptBindErr {ε α β : Type} (e : ε) (f : α → Except ε β) :
    (Except.error (α := α) e >>= f) = Except.error e := rfl

theorem utf8Step_some {b : Nat} {rest : List Nat} {n : Nat} {rest2 : List Nat}
    (h : utf8Step b rest = some (n, rest2)) :
    1 ≤ n ∧ rest2.length + n = rest.length + 1 := by
  unfold utf8Step at h
  repeat' split at h
  all_goals first
    | (cases h; constructor <;> simp)
    | (cases h)

theorem utf8Scan_bound : ∀ (f : Nat) (s : List Nat) (i j : Nat),
    utf8Scan f s i = some j → i ≤ j ∧ j < i + s.length := by
  intro f
  induction f with
  | zero => intro s i j h; simp [utf8Scan] at h
  | succ f2 ih =>
    intro s i j h
    cases s with
    | nil => simp [utf8Scan] at h
    | cons b rest =>
      simp only [utf8Scan] at h
      cases hstep : utf8Step b rest with
      | none =>
        rw [hstep] at h
        cases h
        simp
      | some t =>
        obtain ⟨n, rest2⟩ := t
        rw [hstep] at h
        have hs := utf8Step_some hstep
        have := ih rest2 (i + n) j h
        simp only [List.length_cons]
        omega

theorem utf8FirstBad_bound {s : List Nat} {i j : Nat}
    (h : utf8FirstBad s i = some j) : i ≤ j ∧ j < i + s.length :=
  utf8Scan_bound s.length s i j h

theorem parserBound_err {α : Type} {pos len off : Nat} {k : DecodeErrKind}
    (h : off ≤ pos + len) :
    parserBound (α := α) pos len (.error ⟨off, k⟩) := h

theorem parserBound_okt {α : Type} {pos len : Nat} {a : α} {rem2 : List Nat} {pos2 : Nat}
    (h1 : pos2 + rem2.length = pos + len) (h2 : pos ≤ pos2) :
    parserBound pos len (.ok (a, rem2, pos2)) := ⟨h1, h2⟩

theorem parserBound_bind {α β : Type} {pos len : Nat}
    {x : Except DecodeError (α × List Nat × Nat)}
    {f : α × List Nat × Nat → Except DecodeError (β × List Nat × Nat)}
    (hx : parserBound pos len x)
    (hf : ∀ a rem1 pos1, x = .ok (a, rem1, pos1) →
      parserBound pos1 rem1.length (f (a, rem1, pos1))) :
    parserBound pos len (x >>= f) := by
  cases x with
  | error e => exact hx
  | ok t =>
    obtain ⟨a, rem1, pos1⟩ := t
    obtain ⟨hc, hle⟩ := hx
    have h2 := hf a rem1 pos1 rfl
    rw [exceptBindOk]
    cases hr : f (a, rem1, pos1) with
    | error e =>
      rw [hr] at h2
      simp only [parserBound] at h2 ⊢
      omega
    | ok t2 =>
      obtain ⟨b, rem2, pos2⟩ := t2
      rw [hr] at h2
      obtain ⟨h2a, h2b⟩ := h2
      exact ⟨by omega, by omega⟩

theorem readByteAt_pb (rem : List Nat) (pos : Nat) :
    parserBound pos rem.length (readByteAt rem pos) := by
  cases rem with
  | nil => exact parserBound_err (by simp)
  | cons b rest => exact parserBound_okt (by simp; omega) (by omega)

theorem readByteAt_ok {rem : List Nat} {pos b : Nat} {rem2 : List Nat} {pos2 : Nat}
    (h : readByteAt rem pos = .ok (b, rem2, pos2)) :
    pos2 = pos + 1 ∧ rem2.length + 1 = rem.length := by
  cases rem with
  | nil => cases h
  | cons x rest =>
    simp only [readByteAt, Except.ok.injEq, Prod.mk.injEq] at h
    obtain ⟨-, h2, h3⟩ := h
    subst h2
    subst h3
    simp

theorem readBytesAt_pb (n : Nat) (rem : List Nat) (pos : Nat) :
    parserBound pos rem.length (readBytesAt n rem pos) := by
  unfold readBytesAt
  split
  · refine parserBound_okt ?_ (by omega)
    have h1 : (rem.drop n).length = rem.length - n := List.length_drop n rem
    omega
  · exact parserBound_err (by omega)

theorem readBytesAt_ok {n : Nat} {rem : List Nat} {pos : Nat} {xs rem2 : List Nat} {pos2 : Nat}
    (h : readBytesAt n rem pos = .ok (xs, rem2, pos2)) :
    xs.length = n ∧ pos2 = pos + n ∧ rem2.length + n = rem.length := by
  unfold readBytesAt at h
  split at h
  · rename_i hle
    simp only [Except.ok.injEq, Prod.mk.injEq] at h
    obtain ⟨h1, h2, h3⟩ := h
    subst h1
    subst h2
    subst h3
    refine ⟨by simp [List.length_take]; omega, rfl, by simp [List.length_drop]; omega⟩
  · cases h

theorem readU32At_pb (rem : List Nat) (pos : Nat) :
    parserBound pos rem.length (readU32At rem pos) := by
  unfold readU32At
  refine parserBound_bind (readBytesAt_pb 4 rem pos) ?_
  intro bs rem1 pos1 _
  refine parserBound_okt ?_ ?_ <;> (try dsimp only) <;> omega

theorem readU32At_ok {rem : List Nat} {pos v : Nat} {rem2 : List Nat} {pos2 : Nat}
    (h : readU32At rem pos = .ok (v, rem2, pos2)) :
    pos2 = pos + 4 ∧ rem2.length + 4 = rem.length := by
  unfold readU32At at h
  cases h4 : readBytesAt 4 rem pos with
  | error e => rw [h4, exceptBindErr] at h; cases h
  | ok t =>
    obtain ⟨bs, rem1, pos1⟩ := t
    rw [h4, exceptBindOk] at h
    have hb := readBytesAt_ok h4
    simp only [Except.ok.injEq, Prod.mk.injEq] at h
    obtain ⟨-, h2, h3⟩ := h
    subst h2
    subst h3
    omega

theorem readU64At_pb (rem : List Nat) (pos : Nat) :
    parserBound pos rem.length (readU64At rem pos) := by
  unfold readU64At
  refine parserBound_bind (readBytesAt_pb 8 rem pos) ?_
  intro bs rem1 pos1 _
  refine parserBound_okt ?_ ?_ <;> (try dsimp only) <;> omega

theorem readU64At_ok {rem : List Nat} {pos v : Nat} {rem2 : List Nat} {pos2 : Nat}
    (h : readU64At rem pos = .ok (v, rem2, pos2)) :
    pos2 = pos + 8 ∧ rem2.length + 8 = rem.length := by
  unfold readU64At at h
  cases h4 : readBytesAt 8 rem pos with
  | error e => rw [h4, exceptBindErr] at h; cases h
  | ok t =>
    obtain ⟨bs, rem1, pos1⟩ := t
    rw [h4, exceptBindOk] at h
    have hb := readBytesAt_ok h4
    simp only [Except.ok.injEq, Prod.mk.injEq] at h
    obtain ⟨-, h2, h3⟩ := h
    subst h2
    subst h3
    omega

theorem parseDict_pb {o : DecodeOptions} :
    ∀ (n : Nat) (prev : Option Key) (rem : List Nat) (pos : Nat),
    parserBound pos rem.length (parseDict o n prev rem pos) := by
  intro n
  induction n with
  | zero =>
    intro prev rem pos
    refine parserBound_okt ?_ ?_ <;> (try dsimp only) <;> omega
  | succ n2 ih =>
    intro prev rem pos
    simp only [parseDict]
    refine parserBound_bind (readU32At_pb rem pos) ?_
    intro len rem1 pos1 heq1
    have h1 := readU32At_ok heq1
    dsimp only
    split
    · exact parserBound_err (by omega)
    · refine parserBound_bind (readBytesAt_pb len rem1 pos1) ?_
      intro kb rem2 pos2 heq2
      have h2 := readBytesAt_ok heq2
      dsimp only
      split
      · rename_i j hj
        refine parserBound_err ?_
        have hb := utf8FirstBad_bound hj
        omega
      · split
        · refine parserBound_bind (ih (some kb) rem2 pos2) ?_
          intro ks rem3 pos3 _
          refine parserBound_okt ?_ ?_ <;> (try dsimp only) <;> omega
        · exact parserBound_err (by omega)

theorem parseElems_pb {pv : List Nat → Nat → Except DecodeError (Value × List Nat × Nat)}
    (hpv : ∀ rem pos, parserBound pos rem.length (pv rem pos)) :
    ∀ (n : Nat) (rem : List Nat) (pos : Nat),
    parserBound pos rem.length (parseElems pv n rem pos) := by
  intro n
  induction n with
  | zero =>
    intro rem pos
    refine parserBound_okt ?_ ?_ <;> (try dsimp only) <;> omega
  | succ n2 ih =>
    intro rem pos
    simp only [parseElems]
    refine parserBound_bind (hpv rem pos) ?_
    intro v rem1 pos1 _
    dsimp only
    refine parserBound_bind (ih rem1 pos1) ?_
    intro vs rem2 pos2 _
    refine parserBound_okt ?_ ?_ <;> (try dsimp only) <;> omega

theorem parsePairs_pb {pv : List Nat → Nat → Except DecodeError (Value × List Nat × Nat)}
    {dict : List Key}
    (hpv : ∀ rem pos, parserBound pos rem.length (pv rem pos)) :
    ∀ (n : Nat) (prev : Option Nat) (rem : List Nat) (pos : Nat),
    parserBound pos rem.length (parsePairs pv dict n prev rem pos) := by
  intro n
  induction n with
  | zero =>
    intro prev rem pos
    refine parserBound_okt ?_ ?_ <;> (try dsimp only) <;> omega
  | succ n2 ih =>
    intro prev rem pos
    simp only [parsePairs]
    refine parserBound_bind (readU32At_pb rem pos) ?_
    intro idx rem1 pos1 heq1
    have h1 := readU32At_ok heq1
    dsimp only
    split
    · split
      · refine parserBound_bind (hpv rem1 pos1) ?_
        intro v rem2 pos2 _
        dsimp only
        refine parserBound_bind (ih (some idx) rem2 pos2) ?_
        intro ps rem3 pos3 _
        refine parserBound_okt ?_ ?_ <;> (try dsimp only) <;> omega
      · exact parserBound_err (by omega)
    · exact parserBound_err (by omega)

theorem parseValue_pb {dict : List Key} :
    ∀ (fuel : Nat) (rem : List Nat) (pos : Nat),
    parserBound pos rem.length (parseValue dict fuel rem pos) := by
  intro fuel
  induction fuel with
  | zero =>
    intro rem pos
    exact parserBound_err (by omega)
  | succ f ih =>
    intro rem pos
    simp only [parseValue]
    refine parserBound_bind (readByteAt_pb rem pos) ?_
    intro tag rem1 pos1 heq1
    have h1 := readByteAt_ok heq1
    dsimp only
    split
    · refine parserBound_okt ?_ ?_ <;> (try dsimp only) <;> omega
    · split
      · refine parserBound_okt ?_ ?_ <;> (try dsimp only) <;> omega
      · split
        · refine parserBound_okt ?_ ?_ <;> (try dsimp only) <;> omega
        · split
          · refine parserBound_bind (readU64At_pb rem1 pos1) ?_
            intro w rem2 pos2 _
            refine parserBound_okt ?_ ?_ <;> (try dsimp only) <;> omega
          · split
            · refine parserBound_bind (readU64At_pb rem1 pos1) ?_
              intro w rem2 pos2 _
              refine parserBound_okt ?_ ?_ <;> (try dsimp only) <;> omega
            · split
              · refine parserBound_bind (readU32At_pb rem1 pos1) ?_
                intro len rem2 pos2 heq2
                have h2 := readU32At_ok heq2
                dsimp only
                refine parserBound_bind (readBytesAt_pb len rem2 pos2) ?_
                intro sb rem3 pos3 heq3
                have h3 := readBytesAt_ok heq3
                dsimp only
                split
                · rename_i j hj
                  refine parserBound_err ?_
                  have hb := utf8FirstBad_bound hj
                  omega
                · refine parserBound_okt ?_ ?_ <;> (try dsimp only) <;> omega
              · split
                · refine parserBound_bind (readU32At_pb rem1 pos1) ?_
                  intro cnt rem2 pos2 _
                  dsimp only
                  refine parserBound_bind (parseElems_pb (fun r p => ih r p) cnt rem2 pos2) ?_
                  intro es rem3 pos3 _
                  refine parserBound_okt ?_ ?_ <;> (try dsimp only) <;> omega
                · split
                  · refine parserBound_bind (readU32At_pb rem1 pos1) ?_
                    intro cnt rem2 pos2 _
                    dsimp only
                    refine parserBound_bind (parsePairs_pb (fun r p => ih r p) cnt none rem2 pos2) ?_
                    intro ps rem3 pos3 _
                    refine parserBound_okt ?_ ?_ <;> (try dsimp only) <;> omega
                  · exact parserBound_err (by omega)

theorem decodeBinary_bound {bytes : List Nat} {o : DecodeOptions} {e : DecodeError}
    (h : decodeBinary bytes o = .error e) : e.offset ≤ bytes.length := by
  unfold decodeBinary at h
  cases h1 : readBytesAt 4 bytes 0 with
  | error e1 =>
    rw [h1, exceptBindErr] at h
    cases h
    have := readBytesAt_pb 4 bytes 0
    rw [h1] at this
    simp only [parserBound] at this
    omega
  | ok t1 =>
    obtain ⟨magic, rem1, pos1⟩ := t1
    have hb1 := readBytesAt_ok h1
    rw [h1, exceptBindOk] at h
    dsimp only at h
    split at h
    · cases h
      simp
    · cases h2 : readByteAt rem1 pos1 with
      | error e2 =>
        rw [h2, exceptBindErr] at h
        cases h
        have := readByteAt_pb rem1 pos1
        rw [h2] at this
        simp only [parserBound] at this
        omega
      | ok t2 =>
        obtain ⟨ver, rem2, pos2⟩ := t2
        have hb2 := readByteAt_ok h2
        rw [h2, exceptBindOk] at h
        dsimp only at h
        split at h
        · cases h
          simp only
          omega
        · cases h3 : readU32At rem2 pos2 with
          | error e3 =>
            rw [h3, exceptBindErr] at h
            cases h
            have := readU32At_pb rem2 pos2
            rw [h3] at this
            simp only [parserBound] at this
            omega
          | ok t3 =>
            obtain ⟨n, rem3, pos3⟩ := t3
            have hb3 := readU32At_ok h3
            rw [h3, exceptBindOk] at h
            dsimp only at h
            split at h
            · cases h
              simp only
              omega
            · cases h4 : parseDict o n none rem3 pos3 with
              | error e4 =>
                rw [h4, exceptBindErr] at h
                cases h
                have := parseDict_pb (o := o) n none rem3 pos3
                rw [h4] at this
                simp only [parserBound] at this
                omega
              | ok t4 =>
                obtain ⟨dict, rem4, pos4⟩ := t4
                have hpd := parseDict_pb (o := o) n none rem3 pos3
                rw [h4] at hpd
                obtain ⟨hpd1, hpd2⟩ := hpd
                rw [h4, exceptBindOk] at h
                dsimp only at h
                cases h5 : parseValue dict o.maxDepth rem4 pos4 with
                | error e5 =>
                  rw [h5, exceptBindErr] at h
                  cases h
                  have := @parseValue_pb dict o.maxDepth rem4 pos4
                  rw [h5] at this
                  simp only [parserBound] at this
                  omega
                | ok t5 =>
                  obtain ⟨v, rem5, pos5⟩ := t5
                  have hpv := @parseValue_pb dict o.maxDepth rem4 pos4
                  rw [h5] at hpv
                  obtain ⟨hpv1, hpv2⟩ := hpv
                  rw [h5, exceptBindOk] at h
                  dsimp only at h
                  split at h
                  · cases h
                  · cases h
                    simp only
                    omega

/-! Arithmetic of the int64-to-double cast. -/

theorem log2Aux_spec : ∀ (f n : Nat), 1 ≤ n → n ≤ f →
    2 ^ log2Aux f n ≤ n ∧ n < 2 ^ (log2Aux f n + 1) := by
  intro f
  induction f with
  | zero => intro n h1 h2; omega
  | succ f2 ih =>
    intro n h1 h2
    by_cases hn : n ≤ 1
    · have he : n = 1 := by omega
      subst he
      simp [log2Aux]
    · simp only [log2Aux, if_neg hn]
      have hrec := ih (n / 2) (by omega) (by omega)
      obtain ⟨ha, hb⟩ := hrec
      have e1 : (2 : Nat) ^ (1 + log2Aux f2 (n / 2)) = 2 * 2 ^ log2Aux f2 (n / 2) := by
        ring
      have e2 : (2 : Nat) ^ (1 + log2Aux f2 (n / 2) + 1) = 4 * 2 ^ log2Aux f2 (n / 2) := by
        ring
      rw [e1, e2]
      have e3 : (2 : Nat) ^ (log2Aux f2 (n / 2) + 1) = 2 * 2 ^ log2Aux f2 (n / 2) := by
        ring
      rw [e3] at hb
      omega

theorem natLog2_spec {n : Nat} (h : 1 ≤ n) :
    2 ^ natLog2 n ≤ n ∧ n < 2 ^ (natLog2 n + 1) :=
  log2Aux_spec n n h (le_refl n)

theorem natLog2_le_52 {n : Nat} (h1 : 1 ≤ n) (h2 : n < 2 ^ 53) : natLog2 n ≤ 52 := by
  by_contra hgt
  push_neg at hgt
  have hspec := natLog2_spec h1
  have : (2 : Nat) ^ 53 ≤ 2 ^ natLog2 n := Nat.pow_le_pow_right (by omega) (by omega)
  omega

theorem finiteOfBits_doubleBitsOfPos {n : Nat} (h1 : 1 ≤ n) (h2 : n < 2 ^ 53) :
    doubleBitsOfPos n < 2 ^ 63 ∧
    finiteOfBits (doubleBitsOfPos n) =
      some ⟨((n * 2 ^ (52 - natLog2 n) : Nat) : Int), (natLog2 n : Int) - 52⟩ := by
  have hble : natLog2 n ≤ 52 := natLog2_le_52 h1 h2
  have hspec := natLog2_spec h1
  set b := natLog2 n with hbdef
  have hsplit : (2 : Nat) ^ b * 2 ^ (52 - b) = 2 ^ 52 := by
    rw [← pow_add]
    congr 1
    omega
  have hsplit2 : (2 : Nat) ^ (b + 1) = 2 * 2 ^ b := by
    rw [pow_add, pow_one]
    ring
  set L := n * 2 ^ (52 - b) with hLdef
  have hL1 : 2 ^ 52 ≤ L := by
    calc (2 : Nat) ^ 52 = 2 ^ b * 2 ^ (52 - b) := hsplit.symm
    _ ≤ n * 2 ^ (52 - b) := Nat.mul_le_mul_right _ hspec.1
  have hL2 : L < 2 ^ 53 := by
    have hstep : L < 2 ^ (b + 1) * 2 ^ (52 - b) :=
      mul_lt_mul_of_pos_right hspec.2 (Nat.pos_pow_of_pos _ (by omega))
    have : (2 : Nat) ^ (b + 1) * 2 ^ (52 - b) = 2 ^ 53 := by
      rw [← pow_add]
      congr 1
      omega
    omega
  have hbits : doubleBitsOfPos n = (b + 1022) * 2 ^ 52 + L := by
    unfold doubleBitsOfPos
    rw [← hbdef, if_pos hble]
  rw [hbits]
  have hb52 : (2 : Nat) ^ 52 = 4503599627370496 := by norm_num
  have hb53 : (2 : Nat) ^ 53 = 9007199254740992 := by norm_num
  have hb63 : (2 : Nat) ^ 63 = 9223372036854775808 := by norm_num
  rw [hb52] at hL1
  rw [hb53] at hL2
  constructor
  · rw [hb52, hb63]
    omega
  · unfold finiteOfBits
    dsimp only
    have h11 : (2 : Nat) ^ 11 = 2048 := by norm_num
    have hsign : ((b + 1022) * 2 ^ 52 + L) / 2 ^ 63 % 2 = 0 := by
      rw [hb52, hb63]
      omega
    have hex : ((b + 1022) * 2 ^ 52 + L) / 2 ^ 52 % 2 ^ 11 = b + 1023 := by
      rw [hb52, h11]
      omega
    have hmant : ((b + 1022) * 2 ^ 52 + L) % 2 ^ 52 = L - 2 ^ 52 := by
      rw [hb52]
      omega
    rw [hsign, hex, hmant]
    rw [if_neg (show ¬ b + 1023 = 2047 by omega)]
    rw [if_neg (show ¬ b + 1023 = 0 by omega)]
    dsimp only
    rw [if_neg (show ¬ (0 : Nat) = 1 by decide)]
    have hmag : (2 : Nat) ^ 52 + (L - 2 ^ 52) = L := by
      rw [hb52]
      omega
    rw [hmag]
    simp only [Option.some.injEq, FiniteDouble.mk.injEq]
    constructor
    · trivial
    · push_cast
      ring

theorem finiteOfBits_add_sign {bits : Nat} (h : bits < 2 ^ 63) :
    finiteOfBits (2 ^ 63 + bits) = (finiteOfBits bits).map (fun f => ⟨-f.m, f.e⟩) := by
  unfold finiteOfBits
  dsimp only
  have hb63 : (2 : Nat) ^ 63 = 9223372036854775808 := by norm_num
  have hb52 : (2 : Nat) ^ 52 = 4503599627370496 := by norm_num
  have h11 : (2 : Nat) ^ 11 = 2048 := by norm_num
  have hsign1 : (2 ^ 63 + bits) / 2 ^ 63 % 2 = 1 := by
    rw [hb63]
    omega
  have hsign0 : bits / 2 ^ 63 % 2 = 0 := by
    rw [hb63]
    omega
  have hex : (2 ^ 63 + bits) / 2 ^ 52 % 2 ^ 11 = bits / 2 ^ 52 % 2 ^ 11 := by
    rw [hb63, hb52, h11]
    omega
  have hmant : (2 ^ 63 + bits) % 2 ^ 52 = bits % 2 ^ 52 := by
    rw [hb63, hb52]
    omega
  rw [hsign1, hsign0, hex, hmant]
  by_cases hx : bits / 2 ^ 52 % 2 ^ 11 = 2047
  · rw [if_pos hx, if_pos hx]
    rfl
  · rw [if_neg hx, if_neg hx]
    by_cases hz : bits / 2 ^ 52 % 2 ^ 11 = 0
    · simp only [if_pos hz, Option.map]
      rw [if_pos True.intro, if_neg (show ¬ (0 : Nat) = 1 by decide)]
    · simp only [if_neg hz, Option.map]
      rw [if_pos True.intro, if_neg (show ¬ (0 : Nat) = 1 by decide)]

theorem napiToValue_num_exact {bits : Nat} {c : Int} {E : Nat}
    (hf : finiteOfBits bits = some ⟨c * ((2 ^ E : Nat) : Int), -(E : Int)⟩)
    (h1 : -((2 ^ 53 : Nat) : Int) ≤ c) (h2 : c ≤ ((2 ^ 53 : Nat) : Int)) :
    napiToValue (.num bits) = .int c := by
  have hpos : (0 : Int) < ((2 ^ E : Nat) : Int) := by
    have h0 : 0 < (2 : Nat) ^ E := Nat.pos_pow_of_pos _ (by omega)
    exact_mod_cast h0
  have htn : ((-(E : Int))).toNat = 0 := by omega
  have htn2 : (-(-(E : Int))).toNat = E := by omega
  have hT : fdTruncInt ⟨c * ((2 ^ E : Nat) : Int), -(E : Int)⟩ = c := by
    unfold fdTruncInt
    by_cases he : (0 : Int) ≤ -(E : Int)
    · rw [if_pos he]
      dsimp only
      rw [htn]
      have hE0 : E = 0 := by omega
      subst hE0
      norm_num
    · rw [if_neg he]
      dsimp only
      rw [htn2]
      exact Int.mul_tdiv_cancel c (ne_of_gt hpos)
  have hA : intLeFd (-((2 ^ 53 : Nat) : Int)) ⟨c * ((2 ^ E : Nat) : Int), -(E : Int)⟩ = true := by
    unfold intLeFd
    by_cases he : (0 : Int) ≤ -(E : Int)
    · rw [if_pos he]
      dsimp only
      rw [htn]
      have hE0 : E = 0 := by omega
      subst hE0
      have hone : ((2 ^ (0 : Nat) : Nat) : Int) = 1 := by norm_num
      rw [hone]
      simp only [mul_one, decide_eq_true_eq]
      exact h1
    · rw [if_neg he]
      dsimp only
      rw [htn2]
      simp only [decide_eq_true_eq]
      exact mul_le_mul_of_nonneg_right h1 (le_of_lt hpos)
  have hB : fdLeInt ⟨c * ((2 ^ E : Nat) : Int), -(E : Int)⟩ ((2 ^ 53 : Nat) : Int) = true := by
    unfold fdLeInt
    by_cases he : (0 : Int) ≤ -(E : Int)
    · rw [if_pos he]
      dsimp only
      rw [htn]
      have hE0 : E = 0 := by omega
      subst hE0
      have hone : ((2 ^ (0 : Nat) : Nat) : Int) = 1 := by norm_num
      rw [hone]
      simp only [mul_one, decide_eq_true_eq]
      exact h2
    · rw [if_neg he]
      dsimp only
      rw [htn2]
      simp only [decide_eq_true_eq]
      exact mul_le_mul_of_nonneg_right h2 (le_of_lt hpos)
  have hC : intEqFd c ⟨c * ((2 ^ E : Nat) : Int), -(E : Int)⟩ = true := by
    unfold intEqFd
    by_cases he : (0 : Int) ≤ -(E : Int)
    · rw [if_pos he]
      dsimp only
      rw [htn]
      have hE0 : E = 0 := by omega
      subst hE0
      have hone : ((2 ^ (0 : Nat) : Nat) : Int) = 1 := by norm_num
      rw [hone]
      simp
    · rw [if_neg he]
      dsimp only
      rw [htn2]
      simp
  simp only [napiToValue, hf]
  rw [hA, hB, hT, hC]
  simp

theorem napiToValue_doubleBitsOfPos {n : Nat} (h1 : 1 ≤ n) (h2 : n < 2 ^ 53) :
    napiToValue (.num (doubleBitsOfPos n)) = .int (n : Int) := by
  obtain ⟨_, heq⟩ := finiteOfBits_doubleBitsOfPos h1 h2
  have hble : natLog2 n ≤ 52 := natLog2_le_52 h1 h2
  have hcast : ((n * 2 ^ (52 - natLog2 n) : Nat) : Int)
      = (n : Int) * ((2 ^ (52 - natLog2 n) : Nat) : Int) := by
    push_cast
    ring
  have he : ((natLog2 n : Nat) : Int) - 52 = -(((52 - natLog2 n : Nat) : Nat) : Int) := by
    omega
  rw [hcast, he] at heq
  refine napiToValue_num_exact heq ?_ ?_
  · have ha : (0 : Int) ≤ (n : Int) := by positivity
    have hb : (0 : Int) ≤ ((2 ^ 53 : Nat) : Int) := by positivity
    linarith
  · exact_mod_cast le_of_lt h2

theorem napiToValue_neg_doubleBitsOfPos {n : Nat} (h1 : 1 ≤ n) (h2 : n < 2 ^ 53) :
    napiToValue (.num (2 ^ 63 + doubleBitsOfPos n)) = .int (-(n : Int)) := by
  obtain ⟨hlt, heq⟩ := finiteOfBits_doubleBitsOfPos h1 h2
  have hble : natLog2 n ≤ 52 := natLog2_le_52 h1 h2
  have hmap := finiteOfBits_add_sign hlt
  rw [heq] at hmap
  simp only [Option.map] at hmap
  have hcast : -((n * 2 ^ (52 - natLog2 n) : Nat) : Int)
      = (-(n : Int)) * ((2 ^ (52 - natLog2 n) : Nat) : Int) := by
    push_cast
    ring
  have he : ((natLog2 n : Nat) : Int) - 52 = -(((52 - natLog2 n : Nat) : Nat) : Int) := by
    omega
  rw [hcast, he] at hmap
  refine napiToValue_num_exact hmap ?_ ?_
  · have hb : (n : Int) ≤ ((2 ^ 53 : Nat) : Int) := by exact_mod_cast le_of_lt h2
    linarith
  · have ha : (0 : Int) ≤ (n : Int) := by positivity
    have hb : (0 : Int) ≤ ((2 ^ 53 : Nat) : Int) := by positivity
    linarith

theorem napi_int_roundtrip {i : Int} (h1 : -((2 ^ 53 : Nat) : Int) ≤ i)
    (h2 : i ≤ ((2 ^ 53 : Nat) : Int)) :
    napiToValue (valueToNapi (.int i)) = .int i := by
  have h53 : ((2 ^ 53 : Nat) : Int) = 9007199254740992 := by norm_num
  rw [h53] at h1 h2
  by_cases h0 : i = 0
  · subst h0
    rfl
  · by_cases hpos : 0 ≤ i
    · by_cases htop : i = 9007199254740992
      · subst htop
        rfl
      · have hn1 : 1 ≤ i.toNat := by omega
        have hn2 : i.toNat < 2 ^ 53 := by
          have hl : (2 : Nat) ^ 53 = 9007199254740992 := by norm_num
          omega
        have hv : valueToNapi (.int i) = .num (doubleBitsOfPos i.toNat) := by
          simp only [valueToNapi, doubleBitsOfInt, if_neg h0, if_pos hpos]
        rw [hv, napiToValue_doubleBitsOfPos hn1 hn2]
        congr 1
        omega
    · by_cases hbot : i = -9007199254740992
      · subst hbot
        rfl
      · have hn1 : 1 ≤ (-i).toNat := by omega
        have hn2 : (-i).toNat < 2 ^ 53 := by
          have hl : (2 : Nat) ^ 53 = 9007199254740992 := by norm_num
          omega
        have hv : valueToNapi (.int i) = .num (2 ^ 63 + doubleBitsOfPos (-i).toNat) := by
          simp only [valueToNapi, doubleBitsOfInt, if_neg h0, if_neg hpos]
        rw [hv, napiToValue_neg_doubleBitsOfPos hn1 hn2]
        congr 1
        omega

/-- The cache returned by loadNative always records exactly the binding that
the call returned. -/
theorem loadNative_state (req : String → String → Except Unit RawBinding)
    (c : Option (Option NativeBinding)) (u p : String) :
    (loadNative req c u p).2 = some (loadNative req c u p).1 := by
  unfold loadNative
  cases c with
  | some r => rfl
  | none =>
    cases hreq : req u p with
    | error e => rfl
    | ok raw =>
      obtain ⟨p1, s1, e1, d1⟩ := raw
      cases p1 <;> cases s1 <;> cases e1 <;> cases d1 <;> rfl

/-! Claim theorems. -/

/-- C1: Binary round-trip - for every Value accepted by the encoder and
within the decoder's default bounds, decodeSync(encode(V)) succeeds and
returns a Value structurally equal to V (object key order may change to
canonical order; structural equality is insensitive to it). -/
theorem C1_binary_round_trip {v : Value} (h : roundTripOk v = true) :
    ∃ bs, encode v {} = .ok bs ∧
      ∃ w, decodeSyncJs bs {} = .ok w ∧ structEq w v = true := by
  simp only [roundTripOk, Bool.and_eq_true] at h
  obtain ⟨he, hc⟩ := h
  have hok := encode_ok_of_encOk he
  simp only [encOk, Bool.and_eq_true, decide_eq_true_eq] at he
  obtain ⟨⟨⟨⟨hdep, hu⟩, hn⟩, hs⟩, h32⟩ := he
  exact ⟨encodeBytes v, hok, canon v, decodeBinary_encodeBytes hu hn hs h32 hc,
    structEq_canon_left v⟩

/-- Closed instance of C1 at a two-key object given in non-canonical key
order. -/
theorem C1_binary_round_trip_witness :
    roundTripOk (.obj [([98], .int 2), ([97], .int 1)]) = true ∧
    ∃ bs, encode (.obj [([98], .int 2), ([97], .int 1)]) {} = .ok bs ∧
      ∃ w, decodeSyncJs bs {} = .ok w ∧
        structEq w (.obj [([98], .int 2), ([97], .int 1)]) = true :=
  ⟨rfl, C1_binary_round_trip rfl⟩

/-- C2: Canonical determinism - encode is a pure function of its argument
(two calls on the same Value are the same term, hence byte-identical), and
for any two encoder-accepted Values that are structurally equal (object key
order may differ), the encodings are byte-for-byte equal. -/
theorem C2_canonical_determinism {v w : Value} {o : EncodeOptions}
    (hv : encOk v o = true) (hw : encOk w o = true) (h : structEq v w = true) :
    encode v o = encode w o := by
  rw [encode_ok_of_encOk hv, encode_ok_of_encOk hw,
    encodeBytes_eq_of_canon_eq (structEq_iff.1 h)]

/-- Closed instance of C2 at two structurally equal objects with permuted
keys. -/
theorem C2_canonical_determinism_witness :
    encOk (.obj [([97], .int 1), ([98], .bool true)]) {} = true ∧
    encOk (.obj [([98], .bool true), ([97], .int 1)]) {} = true ∧
    structEq (.obj [([97], .int 1), ([98], .bool true)])
      (.obj [([98], .bool true), ([97], .int 1)]) = true ∧
    encode (.obj [([97], .int 1), ([98], .bool true)]) {} =
      encode (.obj [([98], .bool true), ([97], .int 1)]) {} :=
  ⟨rfl, rfl, rfl, C2_canonical_determinism rfl rfl rfl⟩

/-- C3 (amended): the Value-level encoder does preserve the numeric variant
- an Int always emits tag 0x04 and a Float always emits tag 0x05 - but the
shipped encode entry point reaches the encoder through the N-API boundary,
where NapiToValue converts every integral host number in [-2^53, 2^53] to
the Int variant.  The host value {x: 1.0} therefore encodes exactly like
{x: Int 1}, with tag 0x04, not 0x05. -/
theorem C3_numeric_variants (dict : List Key) (i : Int) (bits : Nat) :
    List.take 1 (emit dict (.int i)) = [0x04] ∧
    List.take 1 (emit dict (.float bits)) = [0x05] ∧
    encodeNative (.obj [([120], .num 0x3FF0000000000000)]) {} =
      encode (.obj [([120], .int 1)]) {} :=
  ⟨rfl, rfl, rfl⟩

/-- Counterexample to C3 as stated: through the native binding, the host
object {x: 1.0} (the bit pattern of the double 1.0) is encoded with value
tag 0x04 (Int), not 0x05, because NapiToValue downcasts the integral float
to Int.  The byte listed after the key index 0 is the tag 0x04. -/
theorem C3_counterexample :
    napiToValue (.num 0x3FF0000000000000) = .int 1 ∧
    encodeNative (.obj [([120], .num 0x3FF0000000000000)]) {} =
      .ok [75, 79, 68, 65, 1, 0, 0, 0, 1, 0, 0, 0, 1, 120, 17, 0, 0, 0, 1,
           0, 0, 0, 0, 4, 0, 0, 0, 0, 0, 0, 0, 1] :=
  ⟨rfl, rfl⟩

/-- C4 (amended): the binary codec itself preserves every signed 64-bit Int
exactly (first conjunct), but the shipped decodeSync surfaces results
through the N-API boundary, where ValueToNapi casts the int64 to a binary64
double; the Int value is preserved across that boundary exactly on
[-2^53, 2^53] (second conjunct), and is rounded outside it. -/
theorem C4_int_range :
    (∀ i : Int, -((2 ^ 63 : Nat) : Int) ≤ i → i < ((2 ^ 63 : Nat) : Int) →
      decodeBinary (encodeBytes (.int i)) {} = .ok (.int i)) ∧
    (∀ i : Int, -((2 ^ 53 : Nat) : Int) ≤ i → i ≤ ((2 ^ 53 : Nat) : Int) →
      napiToValue (valueToNapi (.int i)) = .int i) := by
  constructor
  · intro i h1 h2
    have hs : sizesOkV (.int i) = true := by
      show intInRange i = true
      exact intInRange_iff.2 ⟨h1, h2⟩
    have h32 : (dictOf (Value.int i)).length < 2 ^ 32 := by
      have hd : dictOf (Value.int i) = [] := rfl
      rw [hd]
      decide
    exact decodeBinary_encodeBytes rfl rfl hs h32 rfl
  · intro i h1 h2
    exact napi_int_roundtrip h1 h2

/-- Closed instance of C4 at the boundary value 2^53, where both the binary
round trip and the host-boundary round trip are still exact. -/
theorem C4_int_range_witness :
    decodeBinary (encodeBytes (.int 9007199254740992)) {} =
      .ok (.int 9007199254740992) ∧
    napiToValue (valueToNapi (.int 9007199254740992)) = .int 9007199254740992 :=
  ⟨C4_int_range.1 9007199254740992 (by decide) (by decide),
   C4_int_range.2 9007199254740992 (by decide) (by decide)⟩

/-- Counterexample to C4 as stated: the Int 2^53 + 1 survives the binary
layer but is rounded to 2^53 by the int64-to-double cast in ValueToNapi, so
decodeSync through the native addon does not return the same 64-bit value. -/
theorem C4_counterexample :
    decodeSyncNative (encodeBytes (.int 9007199254740993)) {} =
      .ok (valueToNapi (.int 9007199254740993)) ∧
    napiToValue (valueToNapi (.int 9007199254740993)) = .int 9007199254740992 :=
  ⟨rfl, rfl⟩

/-- C5: Async/sync decode equivalence - the promise returned by decode
settles with exactly the worker outcome: it resolves with the value
decodeSync computes when that succeeds (structural equality included, here
by reflexivity since the worker posts the decoded Value unchanged), and
rejects with the rendered message exactly when decodeSync fails. -/
theorem C5_async_sync_equiv (buffer : List Nat) (o : DecodeOptions) :
    (∀ v, decodeSyncJs buffer o = .ok v →
      decodeAsyncResult buffer o = .ok v ∧ structEq v v = true) ∧
    (∀ e, decodeSyncJs buffer o = .error e →
      decodeAsyncResult buffer o = .error (renderDecodeError e)) := by
  constructor
  · intro v hv
    refine ⟨?_, structEq_refl v⟩
    unfold decodeAsyncResult workerOnMessage
    dsimp only
    unfold doDecode
    unfold decodeSyncJs at hv
    rw [hv]
  · intro e he
    unfold decodeAsyncResult workerOnMessage
    dsimp only
    unfold doDecode
    unfold decodeSyncJs at he
    rw [he]

/-- Closed instance of C5 at the minimal valid document (Null with an empty
dictionary). -/
theorem C5_async_sync_equiv_witness :
    decodeAsyncResult [75, 79, 68, 65, 1, 0, 0, 0, 0, 1] {} = .ok .null ∧
    structEq .null .null = true :=
  (C5_async_sync_equiv [75, 79, 68, 65, 1, 0, 0, 0, 0, 1] {}).1 .null rfl

/-- C6: Decode error taxonomy - whenever the synchronous decoder rejects an
input it returns an error (never a partial Value: the result type is a sum)
carrying a byte offset that lies within the input, offset ≤ length. -/
theorem C6_decode_error_offset {bytes : List Nat} {o : DecodeOptions}
    {e : DecodeError} (h : decodeSyncJs bytes o = .error e) :
    e.offset ≤ bytes.length :=
  decodeBinary_bound h

/-- Closed instance of C6 at the empty input, rejected as truncated at
offset 0. -/
theorem C6_decode_error_offset_witness :
    decodeSyncJs [] {} = .error ⟨0, .truncated⟩ ∧
    (DecodeError.mk 0 .truncated).offset ≤ ([] : List Nat).length :=
  ⟨rfl, @C6_decode_error_offset [] ({} : DecodeOptions) ⟨0, .truncated⟩ rfl⟩

/-- C7: Input size bound - the maxInputLength guard does reject oversized
inputs before parsing on the JS fallback path (first conjunct), but the
options object that parse forwards to the native addon keeps only maxDepth:
it is identical for any two option records agreeing on maxDepth, whatever
their maxInputLength (second and third conjuncts), so with the native addon
loaded the bound is silently ignored and parsing proceeds. -/
theorem C7_max_input_length_dropped :
    (∀ core text o m, o.maxInputLength = some m → m < text.length →
      parseFastGuard core text o = .error ⟨inputTooLargeMsg⟩) ∧
    (∀ o : ParseOptions, (nativeParseOptionsOf o).maxDepth = o.maxDepth) ∧
    (∀ o o2 : ParseOptions, o.maxDepth = o2.maxDepth →
      nativeParseOptionsOf o = nativeParseOptionsOf o2) := by
  refine ⟨?_, fun o => rfl, ?_⟩
  · intro core text o m hm hlt
    unfold parseFastGuard
    rw [hm]
    dsimp only
    rw [if_pos hlt]
  · intro o o2 h
    unfold nativeParseOptionsOf
    rw [h]

/-- Closed instance of C7: options {maxInputLength: 1} and {} forward
identically to the native parser, while the JS guard rejects "ab" under the
same option. -/
theorem C7_max_input_length_dropped_witness :
    nativeParseOptionsOf ⟨none, some 1⟩ = nativeParseOptionsOf ⟨none, none⟩ ∧
    parseFastGuard (fun _ _ => .ok .null) "ab" ⟨none, some 1⟩ =
      .error ⟨inputTooLargeMsg⟩ :=
  ⟨C7_max_input_length_dropped.2.2 ⟨none, some 1⟩ ⟨none, none⟩ rfl,
   C7_max_input_length_dropped.1 (fun _ _ => .ok .null) "ab" ⟨none, some 1⟩ 1
     rfl (by decide)⟩

/-- C8: a host value that is undefined, or of none of the recognized kinds,
is converted to the Null variant by NapiToValue, so the native encode
produces the Null document rather than raising an error. -/
theorem C8_undefined_encodes_null {h : NapiValue}
    (hu : h = .undefined ∨ h = .other) :
    napiToValue h = .null ∧
    encodeNative h {} = .ok [75, 79, 68, 65, 1, 0, 0, 0, 0, 1] := by
  rcases hu with rfl | rfl
  · exact ⟨rfl, rfl⟩
  · exact ⟨rfl, rfl⟩

/-- Closed instance of C8 at the undefined host value. -/
theorem C8_undefined_encodes_null_witness :
    napiToValue .undefined = .null ∧
    encodeNative .undefined {} = .ok [75, 79, 68, 65, 1, 0, 0, 0, 0, 1] :=
  C8_undefined_encodes_null (Or.inl rfl)

/-- C9: Backend selection is memoized - after a first call to loadNative
(with the module-level cache initially empty), any later call returns the
very result the first call computed and leaves the cache unchanged,
regardless of its own require function and arguments. -/
theorem C9_load_native_memoized
    (req req2 : String → String → Except Unit RawBinding)
    (url url2 path path2 : String) :
    (loadNative req2 (loadNative req none url path).2 url2 path2).1 =
      (loadNative req none url path).1 ∧
    (loadNative req2 (loadNative req none url path).2 url2 path2).2 =
      (loadNative req none url path).2 := by
  rw [loadNative_state req none url path]
  exact ⟨rfl, rfl⟩

/-- C10: Worker error flattening - when the worker's decode job fails, the
message posted back is the failure record {id, error} whose error field is
only the rendered message string of the decode error; the structured error
(offset and kind fields) does not cross the boundary. -/
theorem C10_worker_error_flattening (m : DecoderWorkerMessageIn)
    {e : DecodeError} (h : doDecode m.buffer m.options = .error e) :
    workerOnMessage m = .failure m.id (renderDecodeError e) := by
  unfold workerOnMessage
  rw [h]

/-- Closed instance of C10 at an empty buffer: the worker posts id 7 with
the flattened message of the truncation error at offset 0. -/
theorem C10_worker_error_flattening_witness :
    workerOnMessage ⟨7, [], {}⟩ =
      .failure 7 (renderDecodeError ⟨0, .truncated⟩) :=
  C10_worker_error_flattening ⟨7, [], {}⟩ rfl

end Koda
